import Mathlib

/-!
# CharPointer_UTF8 (juce_CharPointer_UTF8.h): a shallow embedding

The class wraps one raw pointer `data` into a byte buffer.  Here the address
space is a finite list of bytes (`List Nat`; a value cast to `CharType` is
reduced modulo 256 before it is stored) and a pointer is an index into it.
Reading or writing outside the list is undefined behaviour in C++; the
embedding returns `none` there.

`char` is taken to be signed and 8 bits wide (the source tests `byte >= 0` and
`byte < 0`), so a stored byte `b` is negative exactly when `0x80 ≤ b`.
`juce_wchar` and `uint32` are 32 bits wide; a `juce_wchar` argument is carried
as the value of its `(uint32)` cast.

Loops whose trip count is bounded by a 32-bit shift register (`bit >>= 1`)
take 32 units of fuel: after 32 right shifts a 32-bit value is zero.  Loops
that scan the buffer take `mem.length + 1` units of fuel: every iteration reads
a fresh in-bounds byte, so the fuel can only run out after a read outside the
buffer, which already yields `none`.
-/

namespace CharPointer_UTF8

/-- The address space: a finite list of bytes. -/
abbrev Memory := List Nat

/-- The assignment `*p = v` of a byte; a `(CharType)` cast of a wider value is
written `% 256` at the place of the cast. -/
def storeByte (mem : Memory) (p v : Nat) : Option Memory :=
  if p < mem.length then some (mem.set p v) else none

/-- Sign extension of a `char` converted to a 32-bit integer. -/
def signExtend (b : Nat) : Nat :=
  if b < 0x80 then b else b + 0xFFFFFF00

/-- Line 81, `isEmpty`: `*data == 0`. -/
def isEmpty (mem : Memory) (data : Nat) : Option Bool :=
  match mem[data]? with
  | none => none
  | some b => some (b == 0)

/-- Lines 96-101, loop of `operator*`:
`while ((n & bit) != 0 && bit > 0x10) { mask >>= 1; ++numExtraValues; bit >>= 1; }`.
Returns `(mask, numExtraValues)`. -/
def operatorStar_maskLoop (n : Nat) : Nat → Nat → Nat → Nat → Nat × Nat
  | 0, mask, _, numExtraValues => (mask, numExtraValues)
  | fuel + 1, mask, bit, numExtraValues =>
    if (n &&& bit) ≠ 0 ∧ bit > 0x10 then
      operatorStar_maskLoop n fuel (mask >>> 1) (bit >>> 1) (numExtraValues + 1)
    else (mask, numExtraValues)

/-- Lines 105-114, loop of `operator*`:
`for (i = 1; i <= numExtraValues; ++i) { nextByte = data[i]; if ((nextByte & 0xc0) != 0x80) break; n <<= 6; n |= (nextByte & 0x3f); }`.
The first argument counts the iterations that remain. -/
def operatorStar_contLoop (mem : Memory) (data : Nat) : Nat → Nat → Nat → Option Nat
  | 0, _, n => some n
  | remaining + 1, i, n =>
    match mem[data + i]? with
    | none => none
    | some b =>
      let nextByte := signExtend b
      if (nextByte &&& 0xc0) ≠ 0x80 then some n
      else operatorStar_contLoop mem data remaining (i + 1)
             (((n <<< 6) % 2 ^ 32) ||| (nextByte &&& 0x3f))

/-- Lines 84-117, `operator*`: the character at `data`; the pointer is not moved. -/
def operatorStar (mem : Memory) (data : Nat) : Option Nat :=
  match mem[data]? with
  | none => none
  | some byte =>
    if byte < 0x80 then some byte
    else
      let n := byte
      let (mask, numExtraValues) := operatorStar_maskLoop n 32 0x7f 0x40 0
      operatorStar_contLoop mem data numExtraValues 1 (n &&& mask)

/-- Lines 152-157, loop of `getAndAdvance`:
`while ((n & bit) != 0 && bit > 0x8) { mask >>= 1; ++numExtraValues; bit >>= 1; }`.
Returns `(mask, numExtraValues)`. -/
def getAndAdvance_maskLoop (n : Nat) : Nat → Nat → Nat → Nat → Nat × Nat
  | 0, mask, _, numExtraValues => (mask, numExtraValues)
  | fuel + 1, mask, bit, numExtraValues =>
    if (n &&& bit) ≠ 0 ∧ bit > 0x8 then
      getAndAdvance_maskLoop n fuel (mask >>> 1) (bit >>> 1) (numExtraValues + 1)
    else (mask, numExtraValues)

/-- Lines 161-170, loop of `getAndAdvance`:
`while (--numExtraValues >= 0) { nextByte = (uint8) *data++; if ((nextByte & 0xc0) != 0x80) break; n <<= 6; n |= (nextByte & 0x3f); }`.
The first argument is `numExtraValues` before the decrement; the result is
`(n, data)`. -/
def getAndAdvance_contLoop (mem : Memory) : Nat → Nat → Nat → Option (Nat × Nat)
  | 0, n, data => some (n, data)
  | numExtraValues + 1, n, data =>
    match mem[data]? with
    | none => none
    | some nextByte =>
      if (nextByte &&& 0xc0) ≠ 0x80 then some (n, data + 1)
      else getAndAdvance_contLoop mem numExtraValues
             (((n <<< 6) % 2 ^ 32) ||| (nextByte &&& 0x3f)) (data + 1)

/-- Lines 140-173, `getAndAdvance`: returns the decoded character and the
advanced pointer. -/
def getAndAdvance (mem : Memory) (data : Nat) : Option (Nat × Nat) :=
  match mem[data]? with
  | none => none
  | some byte =>
    if byte < 0x80 then some (byte, data + 1)
    else
      let n := byte
      let (mask, numExtraValues) := getAndAdvance_maskLoop n 32 0x7f 0x40 0
      getAndAdvance_contLoop mem numExtraValues (n &&& mask) (data + 1)

/-- Lines 222-229, inner loop of `length`:
`while ((n & bit) != 0) { ++d; bit >>= 1; if (bit == 0) break; }`.
Returns the advanced `d`. -/
def length_bitLoop (n : Nat) : Nat → Nat → Nat → Nat
  | 0, _, d => d
  | fuel + 1, bit, d =>
    if (n &&& bit) ≠ 0 then
      if bit >>> 1 = 0 then d + 1
      else length_bitLoop n fuel (bit >>> 1) (d + 1)
    else d

/-- Lines 214-235, the `for (;;)` loop of `length`. -/
def length_loop (mem : Memory) : Nat → Nat → Nat → Option Nat
  | 0, _, _ => none
  | fuel + 1, d, count =>
    match mem[d]? with
    | none => none
    | some n =>
      if (n &&& 0x80) ≠ 0 then
        length_loop mem fuel (length_bitLoop n 32 0x40 (d + 1)) (count + 1)
      else if n = 0 then some count
      else length_loop mem fuel (d + 1) (count + 1)

/-- Lines 209-238, `length`: the number of characters in the string at `data`. -/
def length (mem : Memory) (data : Nat) : Option Nat :=
  length_loop mem (mem.length + 1) data 0

/-- Lines 257-274, `getBytesRequiredFor (juce_wchar)`; `c` is `(uint32) charToWrite`. -/
def getBytesRequiredFor (c : Nat) : Nat :=
  if c ≥ 0x80 then
    if c ≥ 0x800 then
      if c ≥ 0x10000 then 4 else 3
    else 2
  else 1

/-- Lines 315-316, loop of `write`:
`while (--numExtraBytes >= 0) *data++ = (CharType) (0x80 | (0x3f & (c >> (numExtraBytes * 6))));`.
The first argument is `numExtraBytes` before the decrement. -/
def write_contLoop (c : Nat) : Nat → Memory → Nat → Option (Memory × Nat)
  | 0, mem, data => some (mem, data)
  | numExtraBytes + 1, mem, data =>
    match storeByte mem data ((0x80 ||| (0x3f &&& (c >>> (numExtraBytes * 6)))) % 256) with
    | none => none
    | some mem1 => write_contLoop c numExtraBytes mem1 (data + 1)

/-- Lines 299-322, `write`; `c` is `(uint32) charToWrite`.  Returns the new
memory and the advanced pointer. -/
def write (mem : Memory) (data c : Nat) : Option (Memory × Nat) :=
  if c ≥ 0x80 then
    let numExtraBytes := if c ≥ 0x800 then (if c ≥ 0x10000 then 3 else 2) else 1
    match storeByte mem data (((0xff <<< (7 - numExtraBytes)) ||| (c >>> (numExtraBytes * 6))) % 256) with
    | none => none
    | some mem1 => write_contLoop c numExtraBytes mem1 (data + 1)
  else
    match storeByte mem data (c % 256) with
    | none => none
    | some mem1 => some (mem1, data + 1)

/-- Lines 342-346, loop of `writeAll (const CharPointer_UTF8&)`:
`while ((*data = *s) != 0) { ++data; ++s; }`. -/
def writeAll_loop : Nat → Memory → Nat → Nat → Option (Memory × Nat)
  | 0, _, _, _ => none
  | fuel + 1, mem, data, s =>
    match mem[s]? with
    | none => none
    | some v =>
      match storeByte mem data v with
      | none => none
      | some mem1 =>
        if v ≠ 0 then writeAll_loop fuel mem1 (data + 1) (s + 1)
        else some (mem1, data)

/-- Lines 338-347, `writeAll (const CharPointer_UTF8& src)`; `s` is `src.data`.
Returns the new memory and the final `data`. -/
def writeAll (mem : Memory) (data s : Nat) : Option (Memory × Nat) :=
  writeAll_loop (mem.length + 1) mem data s

/-- Lines 477-480, `canRepresent`: `((unsigned int) character) < (unsigned int) 0x10ffff`.
The argument is any integer; the cast reduces it modulo `2 ^ 32`. -/
def canRepresent (character : Int) : Bool :=
  decide ((character % 2 ^ 32).toNat < 0x10ffff)

/-- Lines 496-504, first inner loop of `isValidString`:
`while ((n & bit) != 0) { if (bit <= 0x10) return false; mask >>= 1; ++numExtraValues; bit >>= 1; }`.
`none` stands for the `return false`; otherwise the final `numExtraValues`. -/
def isValidString_bitLoop (n : Nat) : Nat → Nat → Nat → Option Nat
  | 0, _, numExtraValues => some numExtraValues
  | fuel + 1, bit, numExtraValues =>
    if (n &&& bit) ≠ 0 then
      if bit ≤ 0x10 then none
      else isValidString_bitLoop n fuel (bit >>> 1) (numExtraValues + 1)
    else some numExtraValues

/-- Lines 508-514, second inner loop of `isValidString`:
`while (--numExtraValues >= 0) { nextByte = (uint8) *dataToTest++; if ((nextByte & 0xc0) != 0x80) return false; }`.
The outer `none` is a read outside the buffer, `some none` is the
`return false`, `some (some p)` is the pointer after the loop. -/
def isValidString_contLoop (mem : Memory) : Nat → Nat → Option (Option Nat)
  | 0, dataToTest => some (some dataToTest)
  | numExtraValues + 1, dataToTest =>
    match mem[dataToTest]? with
    | none => none
    | some nextByte =>
      if (nextByte &&& 0xc0) ≠ 0x80 then some none
      else isValidString_contLoop mem numExtraValues (dataToTest + 1)

/-- Lines 485-516, outer loop of `isValidString`:
`while (--maxBytesToRead >= 0 && *dataToTest != 0) { const char byte = *dataToTest; if (byte < 0) { ... } }`.
The first argument is `maxBytesToRead` before the decrement.  The byte is read
with `*dataToTest`, without an increment, as in the source; `mask` and
`n &= mask` (lines 492, 501, 506) are left out, their values being never used. -/
def isValidString_loop (mem : Memory) : Nat → Nat → Option Bool
  | 0, _ => some true
  | maxBytesToRead + 1, dataToTest =>
    match mem[dataToTest]? with
    | none => none
    | some byte =>
      if byte = 0 then some true
      else if 0x80 ≤ byte then
        match isValidString_bitLoop byte 32 0x40 0 with
        | none => some false
        | some numExtraValues =>
          match isValidString_contLoop mem numExtraValues dataToTest with
          | none => none
          | some none => some false
          | some (some p) => isValidString_loop mem maxBytesToRead p
      else isValidString_loop mem maxBytesToRead dataToTest

/-- Lines 483-519, `isValidString (dataToTest, maxBytesToRead)`. -/
def isValidString (mem : Memory) (dataToTest : Nat) (maxBytesToRead : Int) : Option Bool :=
  isValidString_loop mem maxBytesToRead.toNat dataToTest

/-- Lines 63-66, `operator==`: `data == other.data`. -/
def operatorEq (data other : Nat) : Bool :=
  decide (data = other)

/-- Lines 69-72, `operator!=`: the source has `return data == other.data;`. -/
def operatorNe (data other : Nat) : Bool :=
  decide (data = other)

/-- Lines 128-132, loop of `operator++`:
`while ((n & bit) != 0 && bit > 0x8) { ++data; bit >>= 1; }`, where `n` is a
negative `char`, sign-extended for the `&`.  Returns the advanced `data`. -/
def operatorInc_loop (n : Nat) : Nat → Nat → Nat → Nat
  | 0, _, data => data
  | fuel + 1, bit, data =>
    if (signExtend n &&& bit) ≠ 0 ∧ bit > 0x8 then
      operatorInc_loop n fuel (bit >>> 1) (data + 1)
    else data

/-- Lines 120-136, prefix `operator++`: `const char n = *data++;` then, when
`n < 0`, the loop above.  Returns the advanced pointer. -/
def operatorInc (mem : Memory) (data : Nat) : Option Nat :=
  match mem[data]? with
  | none => none
  | some n =>
    if n < 0x80 then some (data + 1)
    else some (operatorInc_loop n 32 0x40 (data + 1))

/-- Lines 188-189, loop of `operator+=`: `while (--numToSkip >= 0) ++*this;`.
The first argument is `numToSkip` before the decrement. -/
def operatorPlusEq_loop (mem : Memory) : Nat → Nat → Option Nat
  | 0, data => some data
  | numToSkip + 1, data =>
    match operatorInc mem data with
    | none => none
    | some data1 => operatorPlusEq_loop mem numToSkip data1

/-- Lines 184-190, `operator+= (int numToSkip)`.  The `jassert (numToSkip >= 0)`
is a debug-build assertion; for a negative argument the loop body never runs. -/
def operatorPlusEq (mem : Memory) (data : Nat) (numToSkip : Int) : Option Nat :=
  operatorPlusEq_loop mem numToSkip.toNat data

/-- Lines 193-198, `operator[] (int characterIndex)`: a copy of the pointer is
moved with `+=` and dereferenced; the pointer itself is not moved. -/
def operatorIndex (mem : Memory) (data : Nat) (characterIndex : Int) : Option Nat :=
  match operatorPlusEq mem data characterIndex with
  | none => none
  | some p => operatorStar mem p

/-- The scan of `strlen`: the first argument is the fuel, `n` the number of
non-zero bytes passed so far. -/
def strlen_loop (mem : Memory) : Nat → Nat → Nat → Option Nat
  | 0, _, _ => none
  | fuel + 1, s, n =>
    match mem[s + n]? with
    | none => none
    | some b => if b = 0 then some n else strlen_loop mem fuel s (n + 1)

/-- Modelled from the spec: `strlen` is the C library function, which is not
part of the repository.  It scans forward from `s` and returns the number of
bytes before the first zero byte (the spec: the terminator is "found by
scanning forward", the size in units is counted up to the terminator). -/
def strlen (mem : Memory) (s : Nat) : Option Nat :=
  strlen_loop mem (mem.length + 1) s 0

/-- Lines 249-252, `sizeInBytes`: `strlen (data) + 1`. -/
def sizeInBytes (mem : Memory) (data : Nat) : Option Nat :=
  match strlen mem data with
  | none => none
  | some n => some (n + 1)

/-- Lines 286-287, loop of `getBytesRequiredFor (CharPointer text)`:
`while ((n = text.getAndAdvance()) != 0) count += getBytesRequiredFor (n);`,
with `CharPointer_UTF8` for the template parameter. -/
def getBytesRequiredFor_text_loop (mem : Memory) : Nat → Nat → Nat → Option Nat
  | 0, _, _ => none
  | fuel + 1, text, count =>
    match getAndAdvance mem text with
    | none => none
    | some (n, text1) =>
      if n ≠ 0 then getBytesRequiredFor_text_loop mem fuel text1 (count + getBytesRequiredFor n)
      else some count

/-- Lines 281-290, `getBytesRequiredFor (CharPointer text)`: the number of
bytes needed for the string at `text`, without the terminator. -/
def getBytesRequiredFor_text (mem : Memory) (text : Nat) : Option Nat :=
  getBytesRequiredFor_text_loop mem (mem.length + 1) text 0

/-- Lines 325-328, `writeNull`: `*data = 0;`.  Returns the new memory and the
pointer, which the function leaves as it is. -/
def writeNull (mem : Memory) (data : Nat) : Option (Memory × Nat) :=
  match storeByte mem data 0 with
  | none => none
  | some mem1 => some (mem1, data)

/-! ## Vocabulary of the statements -/

/-- The number of continuation bytes of the standard encoding of `c`:
0, 1, 2 or 3 according to `c < 0x80`, `c < 0x800`, `c < 0x10000` or otherwise. -/
def extraByteCount (c : Nat) : Nat :=
  if c < 0x80 then 0 else if c < 0x800 then 1 else if c < 0x10000 then 2 else 3

/-- The standard UTF-8 byte sequence of `c`, written from its textbook
description and not from `write`: the single byte `c` when no continuation
byte is needed, otherwise the lead byte, the low 8 bits of
`(0xFF << (7 - n)) | (c >> 6n)`, followed by the bytes
`0x80 | ((c >> 6i) & 0x3F)` for `i = n-1` down to `0`. -/
def standardBytes (c : Nat) : List Nat :=
  let n := extraByteCount c
  if n = 0 then [c]
  else (((0xFF <<< (7 - n)) ||| (c >>> (6 * n))) % 256) ::
    ((List.range n).reverse.map fun i => 0x80 ||| ((c >>> (6 * i)) &&& 0x3F))

/-- The byte `b` has exactly `k` leading one bits followed by a zero bit
(`k ≤ 7`): its top `k + 1` bits are `1...10`. -/
def hasLeadingOnes (b k : Nat) : Prop :=
  b < 256 ∧ b >>> (7 - k) = 2 ^ (k + 1) - 2

/-- The standard byte sequences of the elements of a list, one after the other. -/
def encodeAll : List Nat → List Nat
  | [] => []
  | c :: cs => standardBytes c ++ encodeAll cs

/-- The bytes of `mem` from address `p` on are `bs`. -/
def holdsAt (mem : Memory) (p : Nat) (bs : List Nat) : Prop :=
  ∀ i, i < bs.length → mem[p + i]? = bs[i]?

/-- The call `write (c)` for each element of the list in order, each at the
position the previous one left. -/
def writeEach : List Nat → Memory → Nat → Option (Memory × Nat)
  | [], mem, data => some (mem, data)
  | c :: cs, mem, data =>
    match write mem data c with
    | none => none
    | some (mem1, data1) => writeEach cs mem1 data1

/-- Starting at `p`, one `getAndAdvance` call per element of the list: before
each call `isEmpty` is false and the call returns that element; after the
last call `isEmpty` is true. -/
def readsExactly (mem : Memory) : Nat → List Nat → Bool
  | p, [] => isEmpty mem p == some true
  | p, c :: cs =>
    isEmpty mem p == some false &&
      match getAndAdvance mem p with
      | none => false
      | some (c1, q) => c1 == c && readsExactly mem q cs

/-- The number of bytes that a byte `b` announces behind itself in the scan
of `length ()`: none for a byte below `0xC0`, otherwise the number of one
bits that follow its top bit without a gap (1 for `110x xxxx`, up to 7 for
`0xFF`). -/
def announcedTail (b : Nat) : Nat :=
  if b < 0xC0 then 0 else if b < 0xE0 then 1 else if b < 0xF0 then 2 else if b < 0xF8 then 3
  else if b < 0xFC then 4 else if b < 0xFE then 5 else if b < 0xFF then 6 else 7

/-- A complete unit: a non-zero byte followed by exactly the bytes it
announces, all of them non-zero. -/
def isCompleteUnit : List Nat → Bool
  | [] => false
  | b :: tail =>
    decide (b ≠ 0) && decide (b < 256) && decide (tail.length = announcedTail b)
      && tail.all fun v => decide (v ≠ 0)

/-- The bytes of a list of units, one unit after the other. -/
def joinUnits : List (List Nat) → List Nat
  | [] => []
  | u :: us => u ++ joinUnits us

/-! ## Byte-level facts, checked by evaluation -/

theorem lead2_facts : ∀ t < 32, (0x3FC0 ||| t) % 256 = 0xC0 + t
    ∧ getAndAdvance_maskLoop (0xC0 + t) 32 0x7f 0x40 0 = (0x3f, 1)
    ∧ (0xC0 + t) &&& 0x3f = t ∧ (0xC0 + t) &&& 0x80 ≠ 0
    ∧ length_bitLoop (0xC0 + t) 32 0x40 0 = 1 := by decide

theorem lead3_facts : ∀ t < 16, (0x1FE0 ||| t) % 256 = 0xE0 + t
    ∧ getAndAdvance_maskLoop (0xE0 + t) 32 0x7f 0x40 0 = (0x1f, 2)
    ∧ (0xE0 + t) &&& 0x1f = t ∧ (0xE0 + t) &&& 0x80 ≠ 0
    ∧ length_bitLoop (0xE0 + t) 32 0x40 0 = 2 := by decide

theorem lead4_facts : ∀ t < 8, (0xFF0 ||| t) % 256 = 0xF0 + t
    ∧ getAndAdvance_maskLoop (0xF0 + t) 32 0x7f 0x40 0 = (0x0f, 3)
    ∧ (0xF0 + t) &&& 0x0f = t ∧ (0xF0 + t) &&& 0x80 ≠ 0
    ∧ length_bitLoop (0xF0 + t) 32 0x40 0 = 3 := by decide

theorem cont_facts : ∀ y < 64, (0x80 ||| y) % 256 = 0x80 + y
    ∧ 0x80 ||| y = 0x80 + y
    ∧ (0x80 + y) &&& 0xc0 = 0x80 ∧ (0x80 + y) &&& 0x3f = y := by decide

theorem ascii_facts : ∀ b < 128, b &&& 0x80 = 0 := by decide


/-! ## Arithmetic form of the standard byte sequence -/

theorem and_3f (x : Nat) : x &&& 0x3F = x % 64 := Nat.and_pow_two_sub_one_eq_mod x 6

theorem and_3f_left (x : Nat) : 0x3f &&& x = x % 64 := by
  rw [Nat.and_comm]; exact and_3f x

theorem extraByteCount_add_one (c : Nat) : extraByteCount c + 1 = getBytesRequiredFor c := by
  unfold extraByteCount getBytesRequiredFor
  split_ifs <;> omega

theorem standardBytes_one {c : Nat} (h : c < 0x80) : standardBytes c = [c] := by
  simp [standardBytes, extraByteCount, h]

theorem standardBytes_two {c : Nat} (h1 : 0x80 ≤ c) (h2 : c < 0x800) :
    standardBytes c = [0xC0 + c / 64, 0x80 + c % 64] := by
  have e : extraByteCount c = 1 := by
    unfold extraByteCount; rw [if_neg (by omega), if_pos h2]
  have l := (lead2_facts (c / 64) (by omega)).1
  have k0 := (cont_facts (c % 64) (by omega)).2.1
  simp only [standardBytes, e, Nat.shiftRight_eq_div_pow, and_3f]
  simp [List.range_succ]
  exact ⟨l, k0⟩

theorem standardBytes_three {c : Nat} (h1 : 0x800 ≤ c) (h2 : c < 0x10000) :
    standardBytes c = [0xE0 + c / 4096, 0x80 + c / 64 % 64, 0x80 + c % 64] := by
  have e : extraByteCount c = 2 := by
    unfold extraByteCount; rw [if_neg (by omega), if_neg (by omega), if_pos h2]
  have l := (lead3_facts (c / 4096) (by omega)).1
  have k1 := (cont_facts (c / 64 % 64) (by omega)).2.1
  have k0 := (cont_facts (c % 64) (by omega)).2.1
  simp only [standardBytes, e, Nat.shiftRight_eq_div_pow, and_3f]
  simp [List.range_succ]
  exact ⟨l, k1, k0⟩

theorem standardBytes_four_raw {c : Nat} (h1 : 0x10000 ≤ c) :
    standardBytes c = [(0xFF0 ||| c / 262144) % 256, 0x80 + c / 4096 % 64,
      0x80 + c / 64 % 64, 0x80 + c % 64] := by
  have e : extraByteCount c = 3 := by
    unfold extraByteCount; rw [if_neg (by omega), if_neg (by omega), if_neg (by omega)]
  have k2 := (cont_facts (c / 4096 % 64) (by omega)).2.1
  have k1 := (cont_facts (c / 64 % 64) (by omega)).2.1
  have k0 := (cont_facts (c % 64) (by omega)).2.1
  simp only [standardBytes, e, Nat.shiftRight_eq_div_pow, and_3f]
  simp [List.range_succ]
  exact ⟨k2, k1, k0⟩

theorem standardBytes_four {c : Nat} (h1 : 0x10000 ≤ c) (h2 : c < 0x200000) :
    standardBytes c = [0xF0 + c / 262144, 0x80 + c / 4096 % 64,
      0x80 + c / 64 % 64, 0x80 + c % 64] := by
  rw [standardBytes_four_raw h1, (lead4_facts (c / 262144) (by omega)).1]

theorem standardBytes_length (c : Nat) : (standardBytes c).length = getBytesRequiredFor c := by
  rw [← extraByteCount_add_one]
  unfold standardBytes
  by_cases h : extraByteCount c = 0
  · simp [h]
  · simp [h]

/-! ## What `write` stores -/

theorem write_one {mem : Memory} {p c : Nat} (h : c < 0x80) (hp : p < mem.length) :
    write mem p c = some (mem.set p c, p + 1) := by
  have hc : c % 256 = c := Nat.mod_eq_of_lt (by omega)
  simp [write, storeByte, hp, hc, Nat.not_le.mpr h]

theorem write_two {mem : Memory} {p c : Nat} (h1 : 0x80 ≤ c) (h2 : c < 0x800)
    (hp : p + 1 < mem.length) :
    write mem p c = some ((mem.set p (0xC0 + c / 64)).set (p + 1) (0x80 + c % 64), p + 2) := by
  have l := (lead2_facts (c / 64) (by omega)).1
  have k0 := (cont_facts (c % 64) (by omega)).1
  have hp0 : p < mem.length := by omega
  simp [write, write_contLoop, storeByte, h1, Nat.not_le.mpr h2, Nat.shiftRight_eq_div_pow,
    and_3f_left, l, k0, hp, hp0]

theorem write_three {mem : Memory} {p c : Nat} (h1 : 0x800 ≤ c) (h2 : c < 0x10000)
    (hp : p + 2 < mem.length) :
    write mem p c = some ((((mem.set p (0xE0 + c / 4096)).set (p + 1) (0x80 + c / 64 % 64)).set
      (p + 2) (0x80 + c % 64)), p + 3) := by
  have l := (lead3_facts (c / 4096) (by omega)).1
  have k1 := (cont_facts (c / 64 % 64) (by omega)).1
  have k0 := (cont_facts (c % 64) (by omega)).1
  have hp0 : p < mem.length := by omega
  have hp1 : p + 1 < mem.length := by omega
  have h0 : 0x80 ≤ c := by omega
  simp [write, write_contLoop, storeByte, h0, h1, Nat.not_le.mpr h2, Nat.shiftRight_eq_div_pow,
    and_3f_left, l, k1, k0, hp, hp0, hp1]

theorem write_four {mem : Memory} {p c : Nat} (h1 : 0x10000 ≤ c) (hp : p + 3 < mem.length) :
    write mem p c = some (((((mem.set p ((0xFF0 ||| c / 262144) % 256)).set (p + 1)
      (0x80 + c / 4096 % 64)).set (p + 2) (0x80 + c / 64 % 64)).set
      (p + 3) (0x80 + c % 64)), p + 4) := by
  have k2 := (cont_facts (c / 4096 % 64) (by omega)).1
  have k1 := (cont_facts (c / 64 % 64) (by omega)).1
  have k0 := (cont_facts (c % 64) (by omega)).1
  have hp0 : p < mem.length := by omega
  have hp1 : p + 1 < mem.length := by omega
  have hp2 : p + 2 < mem.length := by omega
  have h0 : 0x80 ≤ c := by omega
  have h00 : 0x800 ≤ c := by omega
  simp [write, write_contLoop, storeByte, h0, h00, h1, Nat.shiftRight_eq_div_pow,
    and_3f_left, k2, k1, k0, hp, hp0, hp1, hp2]

theorem holdsAt_bound {mem : Memory} {p : Nat} {bs : List Nat} (h : holdsAt mem p bs) :
    bs = [] ∨ p + bs.length ≤ mem.length := by
  by_cases hb : bs = []
  · exact Or.inl hb
  · right
    have hl : 0 < bs.length := List.length_pos.mpr hb
    have h1 := h (bs.length - 1) (by omega)
    have hb1 : bs[bs.length - 1]? = some bs[bs.length - 1] :=
      List.getElem?_eq_getElem (by omega)
    rw [hb1] at h1
    obtain ⟨h3, -⟩ := List.getElem?_eq_some.mp h1
    omega

theorem holdsAt_append {mem : Memory} {p : Nat} {as bs : List Nat} :
    holdsAt mem p (as ++ bs) ↔ holdsAt mem p as ∧ holdsAt mem (p + as.length) bs := by
  constructor
  · intro h
    refine ⟨fun i hi => ?_, fun i hi => ?_⟩
    · rw [h i (by rw [List.length_append]; omega), List.getElem?_append_left hi]
    · have := h (as.length + i) (by rw [List.length_append]; omega)
      rw [List.getElem?_append_right (by omega)] at this
      rw [Nat.add_assoc, this]
      congr 1
      omega
  · rintro ⟨h1, h2⟩ i hi
    rw [List.length_append] at hi
    by_cases hia : i < as.length
    · rw [h1 i hia, List.getElem?_append_left hia]
    · have := h2 (i - as.length) (by omega)
      rw [List.getElem?_append_right (by omega), ← this]
      congr 1
      omega

theorem holdsAt_frame {mem mem1 : Memory} {p : Nat} {bs : List Nat} (h : holdsAt mem p bs)
    (hf : ∀ j, p ≤ j → j < p + bs.length → mem1[j]? = mem[j]?) : holdsAt mem1 p bs := by
  intro i hi
  rw [hf (p + i) (by omega) (by omega)]
  exact h i hi

theorem write_spec (mem : Memory) (p c : Nat) (h : p + getBytesRequiredFor c ≤ mem.length) :
    ∃ mem1, write mem p c = some (mem1, p + getBytesRequiredFor c)
      ∧ mem1.length = mem.length
      ∧ holdsAt mem1 p (standardBytes c)
      ∧ ∀ j, (j < p ∨ p + getBytesRequiredFor c ≤ j) → mem1[j]? = mem[j]? := by
  by_cases h1 : c < 0x80
  · have hn : getBytesRequiredFor c = 1 := by simp [getBytesRequiredFor, Nat.not_le.mpr h1]
    rw [hn] at h ⊢
    refine ⟨_, write_one h1 (by omega), by simp, ?_, ?_⟩
    · rw [standardBytes_one h1]
      intro i hi
      simp only [List.length_singleton] at hi
      interval_cases i
      simp [List.getElem?_set]; omega
    · intro j hj
      rw [List.getElem?_set_ne (by omega)]
  by_cases h2 : c < 0x800
  · have hn : getBytesRequiredFor c = 2 := by
      simp [getBytesRequiredFor, Nat.not_le.mpr h2, Nat.not_lt.mp h1]
    rw [hn] at h ⊢
    refine ⟨_, write_two (by omega) h2 (by omega), by simp, ?_, ?_⟩
    · rw [standardBytes_two (by omega) h2]
      intro i hi
      simp only [List.length_cons, List.length_nil] at hi
      interval_cases i <;> simp [List.getElem?_set] <;> omega
    · intro j hj
      rw [List.getElem?_set_ne (by omega), List.getElem?_set_ne (by omega)]
  by_cases h3 : c < 0x10000
  · have hn : getBytesRequiredFor c = 3 := by
      simp [getBytesRequiredFor, Nat.not_le.mpr h3, Nat.not_lt.mp h1, Nat.not_lt.mp h2]
    rw [hn] at h ⊢
    refine ⟨_, write_three (by omega) h3 (by omega), by simp, ?_, ?_⟩
    · rw [standardBytes_three (by omega) h3]
      intro i hi
      simp only [List.length_cons, List.length_nil] at hi
      interval_cases i <;> simp [List.getElem?_set] <;> omega
    · intro j hj
      rw [List.getElem?_set_ne (by omega), List.getElem?_set_ne (by omega),
        List.getElem?_set_ne (by omega)]
  · have hn : getBytesRequiredFor c = 4 := by
      simp [getBytesRequiredFor, Nat.not_lt.mp h3, Nat.not_lt.mp h1, Nat.not_lt.mp h2]
    rw [hn] at h ⊢
    refine ⟨_, write_four (by omega) (by omega), by simp, ?_, ?_⟩
    · rw [standardBytes_four_raw (by omega)]
      intro i hi
      simp only [List.length_cons, List.length_nil] at hi
      interval_cases i <;> simp [List.getElem?_set] <;> omega
    · intro j hj
      rw [List.getElem?_set_ne (by omega), List.getElem?_set_ne (by omega),
        List.getElem?_set_ne (by omega), List.getElem?_set_ne (by omega)]

theorem storeByte_eq_some {mem mem1 : Memory} {p v : Nat} :
    storeByte mem p v = some mem1 ↔ p < mem.length ∧ mem1 = mem.set p v := by
  unfold storeByte
  split_ifs with h
  · simp [h, eq_comm]
  · simp [h]

theorem write_contLoop_room (c : Nat) : ∀ (k : Nat) (mem : Memory) (p : Nat) (r : Memory × Nat),
    write_contLoop c k mem p = some r → 0 < k → p + k ≤ mem.length := by
  intro k
  induction k with
  | zero => intro mem p r _ hk; omega
  | succ k ih =>
    intro mem p r h _
    unfold write_contLoop at h
    split at h
    · simp at h
    · rename_i mem1 hs
      obtain ⟨hp, rfl⟩ := storeByte_eq_some.mp hs
      by_cases hk : 0 < k
      · have := ih _ _ _ h hk
        rw [List.length_set] at this
        omega
      · omega

theorem write_room_aux {c k : Nat} {mem : Memory} {p v : Nat} {r : Memory × Nat} (hk : 0 < k)
    (h : (match storeByte mem p v with
          | none => none
          | some mem1 => write_contLoop c k mem1 (p + 1)) = some r) :
    p + 1 + k ≤ mem.length := by
  split at h
  · simp at h
  · rename_i mem1 hs
    obtain ⟨_, rfl⟩ := storeByte_eq_some.mp hs
    have h5 := write_contLoop_room c _ _ _ _ h hk
    rw [List.length_set] at h5
    exact h5

theorem write_room {mem : Memory} {p c : Nat} {r : Memory × Nat}
    (h : write mem p c = some r) : p + getBytesRequiredFor c ≤ mem.length := by
  unfold write at h
  unfold getBytesRequiredFor
  split_ifs at h ⊢ with h1 h2 h3
  · have h5 := write_room_aux (by omega) h
    omega
  · have h5 := write_room_aux (by omega) h
    omega
  · have h5 := write_room_aux (by omega) h
    omega
  · split at h
    · simp at h
    · rename_i mem1 hs
      obtain ⟨hp, rfl⟩ := storeByte_eq_some.mp hs
      omega

/-! ## Reading back the standard byte sequence -/

theorem getAndAdvance_contLoop_step {mem : Memory} {k n d y : Nat}
    (hm : mem[d]? = some (0x80 + y)) (hy : y < 64) (hn : n < 2 ^ 26) :
    getAndAdvance_contLoop mem (k + 1) n d = getAndAdvance_contLoop mem k (n * 64 + y) (d + 1) := by
  obtain ⟨-, -, f1, f2⟩ := cont_facts y hy
  have e1 : (n <<< 6) % 2 ^ 32 = 2 ^ 6 * n := by
    rw [Nat.shiftLeft_eq, Nat.mod_eq_of_lt (by omega), Nat.mul_comm]
  have e2 : 2 ^ 6 * n ||| y = n * 64 + y := by
    rw [← Nat.mul_add_lt_is_or (by omega) n]; omega
  rw [getAndAdvance_contLoop]
  simp only [hm, f1, f2, e1, e2, ne_eq, not_true_eq_false, if_false]

theorem holdsAt_two {mem : Memory} {p a b : Nat} (h : holdsAt mem p [a, b]) :
    mem[p]? = some a ∧ mem[p + 1]? = some b :=
  ⟨by simpa using h 0 (by simp), by simpa using h 1 (by simp)⟩

theorem holdsAt_three {mem : Memory} {p a b c : Nat} (h : holdsAt mem p [a, b, c]) :
    mem[p]? = some a ∧ mem[p + 1]? = some b ∧ mem[p + 2]? = some c :=
  ⟨by simpa using h 0 (by simp), by simpa using h 1 (by simp), by simpa using h 2 (by simp)⟩

theorem holdsAt_four {mem : Memory} {p a b c d : Nat} (h : holdsAt mem p [a, b, c, d]) :
    mem[p]? = some a ∧ mem[p + 1]? = some b ∧ mem[p + 2]? = some c ∧ mem[p + 3]? = some d :=
  ⟨by simpa using h 0 (by simp), by simpa using h 1 (by simp), by simpa using h 2 (by simp),
    by simpa using h 3 (by simp)⟩

theorem getAndAdvance_standardBytes {mem : Memory} {p c : Nat} (hc : c ≤ 0x10FFFF)
    (h : holdsAt mem p (standardBytes c)) :
    getAndAdvance mem p = some (c, p + getBytesRequiredFor c) := by
  by_cases h1 : c < 0x80
  · rw [standardBytes_one h1] at h
    have h0 : mem[p]? = some c := by simpa using h 0 (by simp)
    simp [getAndAdvance, h0, h1, getBytesRequiredFor, Nat.not_le.mpr h1]
  by_cases h2 : c < 0x800
  · rw [standardBytes_two (by omega) h2] at h
    obtain ⟨m0, m1⟩ := holdsAt_two h
    obtain ⟨-, f1, f2, -, -⟩ := lead2_facts (c / 64) (by omega)
    have hn : getBytesRequiredFor c = 2 := by
      simp [getBytesRequiredFor, Nat.not_le.mpr h2, Nat.not_lt.mp h1]
    unfold getAndAdvance
    simp only [m0, f1, f2]
    rw [if_neg (by omega), getAndAdvance_contLoop_step m1 (by omega) (by omega),
      getAndAdvance_contLoop, hn]
    congr 2
    omega
  by_cases h3 : c < 0x10000
  · rw [standardBytes_three (by omega) h3] at h
    obtain ⟨m0, m1, m2⟩ := holdsAt_three h
    obtain ⟨-, f1, f2, -, -⟩ := lead3_facts (c / 4096) (by omega)
    have hn : getBytesRequiredFor c = 3 := by
      simp [getBytesRequiredFor, Nat.not_le.mpr h3, Nat.not_lt.mp h1, Nat.not_lt.mp h2]
    unfold getAndAdvance
    simp only [m0, f1, f2]
    rw [if_neg (by omega), getAndAdvance_contLoop_step m1 (by omega) (by omega),
      getAndAdvance_contLoop_step m2 (by omega) (by omega), getAndAdvance_contLoop, hn]
    congr 2
    omega
  · rw [standardBytes_four (by omega) (by omega)] at h
    obtain ⟨m0, m1, m2, m3⟩ := holdsAt_four h
    obtain ⟨-, f1, f2, -, -⟩ := lead4_facts (c / 262144) (by omega)
    have hn : getBytesRequiredFor c = 4 := by
      simp [getBytesRequiredFor, Nat.not_lt.mp h3, Nat.not_lt.mp h1, Nat.not_lt.mp h2]
    unfold getAndAdvance
    simp only [m0, f1, f2]
    rw [if_neg (by omega), getAndAdvance_contLoop_step m1 (by omega) (by omega),
      getAndAdvance_contLoop_step m2 (by omega) (by omega),
      getAndAdvance_contLoop_step m3 (by omega) (by omega), getAndAdvance_contLoop, hn]
    congr 2
    omega

/-! ## Scanning written text -/

theorem length_bitLoop_add (n : Nat) : ∀ (fuel bit d : Nat),
    length_bitLoop n fuel bit d = d + length_bitLoop n fuel bit 0 := by
  intro fuel
  induction fuel with
  | zero => intro bit d; simp [length_bitLoop]
  | succ fuel ih =>
    intro bit d
    unfold length_bitLoop
    split_ifs
    · omega
    · rw [ih (bit >>> 1) (d + 1), ih (bit >>> 1) (0 + 1)]; omega
    · rfl

theorem standardBytes_head_ne_zero {c : Nat} (h0 : c ≠ 0) (hc : c ≤ 0x10FFFF) :
    ∃ b rest, standardBytes c = b :: rest ∧ b ≠ 0 := by
  by_cases h1 : c < 0x80
  · exact ⟨_, _, standardBytes_one h1, h0⟩
  by_cases h2 : c < 0x800
  · exact ⟨_, _, standardBytes_two (by omega) h2, by omega⟩
  by_cases h3 : c < 0x10000
  · exact ⟨_, _, standardBytes_three (by omega) h3, by omega⟩
  · exact ⟨_, _, standardBytes_four (by omega) (by omega), by omega⟩

theorem isEmpty_standardBytes {mem : Memory} {p c : Nat} (h0 : c ≠ 0) (hc : c ≤ 0x10FFFF)
    (h : holdsAt mem p (standardBytes c)) : isEmpty mem p = some false := by
  obtain ⟨b, rest, e, hb⟩ := standardBytes_head_ne_zero h0 hc
  rw [e] at h
  have hm : mem[p]? = some b := by simpa using h 0 (by simp)
  simp [isEmpty, hm, hb]

theorem length_loop_standardBytes {mem : Memory} {p c : Nat} (fuel count : Nat) (h0 : c ≠ 0)
    (hc : c ≤ 0x10FFFF) (h : holdsAt mem p (standardBytes c)) :
    length_loop mem (fuel + 1) p count
      = length_loop mem fuel (p + getBytesRequiredFor c) (count + 1) := by
  by_cases h1 : c < 0x80
  · rw [standardBytes_one h1] at h
    have hm : mem[p]? = some c := by simpa using h 0 (by simp)
    simp [length_loop, hm, ascii_facts c h1, h0, getBytesRequiredFor, Nat.not_le.mpr h1]
  by_cases h2 : c < 0x800
  · rw [standardBytes_two (by omega) h2] at h
    obtain ⟨m0, -⟩ := holdsAt_two h
    obtain ⟨-, -, -, f3, f4⟩ := lead2_facts (c / 64) (by omega)
    have hn : getBytesRequiredFor c = 2 := by
      simp [getBytesRequiredFor, Nat.not_le.mpr h2, Nat.not_lt.mp h1]
    rw [length_loop]
    simp only [m0, hn]
    rw [if_pos f3, length_bitLoop_add, f4]
  by_cases h3 : c < 0x10000
  · rw [standardBytes_three (by omega) h3] at h
    obtain ⟨m0, -⟩ := holdsAt_three h
    obtain ⟨-, -, -, f3, f4⟩ := lead3_facts (c / 4096) (by omega)
    have hn : getBytesRequiredFor c = 3 := by
      simp [getBytesRequiredFor, Nat.not_le.mpr h3, Nat.not_lt.mp h1, Nat.not_lt.mp h2]
    rw [length_loop]
    simp only [m0, hn]
    rw [if_pos f3, length_bitLoop_add, f4]
  · rw [standardBytes_four (by omega) (by omega)] at h
    obtain ⟨m0, -⟩ := holdsAt_four h
    obtain ⟨-, -, -, f3, f4⟩ := lead4_facts (c / 262144) (by omega)
    have hn : getBytesRequiredFor c = 4 := by
      simp [getBytesRequiredFor, Nat.not_lt.mp h3, Nat.not_lt.mp h1, Nat.not_lt.mp h2]
    rw [length_loop]
    simp only [m0, hn]
    rw [if_pos f3, length_bitLoop_add, f4]

theorem length_loop_encodeAll : ∀ (cs : List Nat) (mem : Memory) (p count fuel : Nat),
    (∀ c ∈ cs, c ≠ 0 ∧ c ≤ 0x10FFFF) → holdsAt mem p (encodeAll cs ++ [0]) →
    cs.length < fuel → length_loop mem fuel p count = some (count + cs.length) := by
  intro cs
  induction cs with
  | nil =>
    intro mem p count fuel _ h hf
    have hm : mem[p]? = some 0 := by simpa [encodeAll] using h 0 (by simp [encodeAll])
    obtain ⟨f, rfl⟩ : ∃ f, fuel = f + 1 := ⟨fuel - 1, by simp at hf; omega⟩
    simp [length_loop, hm]
  | cons c cs ih =>
    intro mem p count fuel hv h hf
    obtain ⟨f, rfl⟩ : ∃ f, fuel = f + 1 := ⟨fuel - 1, by omega⟩
    rw [encodeAll, List.append_assoc, holdsAt_append, standardBytes_length] at h
    have hc := hv c (List.mem_cons_self _ _)
    rw [length_loop_standardBytes f count hc.1 hc.2 h.1,
      ih mem _ (count + 1) f (fun x hx => hv x (List.mem_cons_of_mem _ hx)) h.2
        (by simp at hf; omega)]
    simp only [List.length_cons]
    congr 1
    omega

theorem readsExactly_encodeAll : ∀ (cs : List Nat) (mem : Memory) (p : Nat),
    (∀ c ∈ cs, c ≠ 0 ∧ c ≤ 0x10FFFF) → holdsAt mem p (encodeAll cs ++ [0]) →
    readsExactly mem p cs = true := by
  intro cs
  induction cs with
  | nil =>
    intro mem p _ h
    have hm : mem[p]? = some 0 := by simpa [encodeAll] using h 0 (by simp [encodeAll])
    simp [readsExactly, isEmpty, hm]
  | cons c cs ih =>
    intro mem p hv h
    rw [encodeAll, List.append_assoc, holdsAt_append, standardBytes_length] at h
    have hc := hv c (List.mem_cons_self _ _)
    have hrest := ih mem _ (fun x hx => hv x (List.mem_cons_of_mem _ hx)) h.2
    simp [readsExactly, isEmpty_standardBytes hc.1 hc.2 h.1,
      getAndAdvance_standardBytes hc.2 h.1, hrest]

theorem writeEach_spec : ∀ (cs : List Nat) (mem m1 : Memory) (p p1 : Nat),
    writeEach cs mem p = some (m1, p1) →
    p1 = p + (encodeAll cs).length ∧ m1.length = mem.length ∧ holdsAt m1 p (encodeAll cs)
      ∧ ∀ j, (j < p ∨ p1 ≤ j) → m1[j]? = mem[j]? := by
  intro cs
  induction cs with
  | nil =>
    intro mem m1 p p1 h
    simp only [writeEach, Option.some.injEq, Prod.mk.injEq] at h
    obtain ⟨rfl, rfl⟩ := h
    exact ⟨by simp [encodeAll], rfl, fun i hi => by simp [encodeAll] at hi, fun _ _ => rfl⟩
  | cons c cs ih =>
    intro mem m1 p p1 h
    unfold writeEach at h
    split at h
    · simp at h
    · rename_i ma pa hw
      obtain ⟨mb, hwb, hlen, hhold, hframe⟩ := write_spec mem p c (write_room hw)
      rw [hw] at hwb
      simp only [Option.some.injEq, Prod.mk.injEq] at hwb
      obtain ⟨rfl, rfl⟩ := hwb
      obtain ⟨e1, e2, e3, e4⟩ := ih _ _ _ _ h
      refine ⟨?_, by omega, ?_, ?_⟩
      · rw [e1, encodeAll, List.length_append, standardBytes_length]; omega
      · rw [encodeAll, holdsAt_append, standardBytes_length]
        refine ⟨holdsAt_frame hhold fun j _ hj2 => e4 j (Or.inl ?_), e3⟩
        rw [standardBytes_length] at hj2
        exact hj2
      · intro j hj
        rw [e4 j (by omega), hframe j (by omega)]

/-! ## The copy loop of `writeAll` -/

theorem writeAll_loop_spec : ∀ (k fuel : Nat) (mem : Memory) (d s : Nat), k < fuel →
    (∀ i, i < k → ∃ v, mem[s + i]? = some v ∧ v ≠ 0) → mem[s + k]? = some 0 →
    d + k < mem.length → (d ≤ s ∨ s + k < d) →
    ∃ mem1, writeAll_loop fuel mem d s = some (mem1, d + k) ∧ mem1.length = mem.length
      ∧ (∀ i, i ≤ k → mem1[d + i]? = mem[s + i]?)
      ∧ ∀ j, (j < d ∨ d + k < j) → mem1[j]? = mem[j]? := by
  intro k
  induction k with
  | zero =>
    intro fuel mem d s hf _ hz hroom _
    obtain ⟨f, rfl⟩ : ∃ f, fuel = f + 1 := ⟨fuel - 1, by omega⟩
    have hz0 : mem[s]? = some 0 := by simpa using hz
    refine ⟨mem.set d 0, ?_, by simp, ?_, ?_⟩
    · have hd : d < mem.length := by omega
      simp [writeAll_loop, hz0, storeByte, hd]
    · intro i hi
      obtain rfl : i = 0 := by omega
      simp only [Nat.add_zero, hz0]
      exact List.getElem?_set_self (by omega)
    · intro j hj
      rw [List.getElem?_set_ne (by omega)]
  | succ k ih =>
    intro fuel mem d s hf hnz hz hroom hov
    obtain ⟨f, rfl⟩ : ∃ f, fuel = f + 1 := ⟨fuel - 1, by omega⟩
    obtain ⟨v, hv, hv0⟩ := hnz 0 (by omega)
    have hv1 : mem[s]? = some v := by simpa using hv
    have hd : d < mem.length := by omega
    have hsrc : ∀ i, (mem.set d v)[s + 1 + i]? = mem[s + 1 + i]? ∨ k < i := by
      intro i
      by_cases hi : k < i
      · exact Or.inr hi
      · exact Or.inl (List.getElem?_set_ne (by omega))
    obtain ⟨mem1, e1, e2, e3, e4⟩ := ih f (mem.set d v) (d + 1) (s + 1) (by omega)
      (fun i hi => by
        obtain ⟨w, hw, hw0⟩ := hnz (i + 1) (by omega)
        refine ⟨w, ?_, hw0⟩
        rw [(hsrc i).resolve_right (by omega), ← hw]
        congr 1
        omega)
      (by
        rw [(hsrc k).resolve_right (by omega), ← hz]
        congr 1
        omega)
      (by rw [List.length_set]; omega) (by omega)
    refine ⟨mem1, ?_, ?_, ?_, ?_⟩
    · simp only [writeAll_loop, hv1, storeByte, hd, if_true, hv0, ne_eq, not_false_eq_true]
      rw [e1]
      congr 2
      omega
    · rw [e2, List.length_set]
    · intro i hi
      by_cases hi0 : i = 0
      · subst hi0
        simp only [Nat.add_zero, hv1]
        rw [e4 d (by omega)]
        exact List.getElem?_set_self hd
      · have := e3 (i - 1) (by omega)
        rw [(hsrc (i - 1)).resolve_right (by omega)] at this
        have a1 : d + 1 + (i - 1) = d + i := by omega
        have a2 : s + 1 + (i - 1) = s + i := by omega
        rw [a1, a2] at this
        exact this
    · intro j hj
      rw [e4 j (by omega), List.getElem?_set_ne (by omega)]

/-! ## The fuel is never the limit

A shift-register loop whose `bit` is below `2 ^ fuel` gives the same result
with more fuel, and so does a scan of the buffer that has more than
`mem.length - d` units of fuel at address `d`. -/

theorem getAndAdvance_maskLoop_fuel (n : Nat) : ∀ (fuel mask bit num : Nat), bit < 2 ^ fuel →
    getAndAdvance_maskLoop n (fuel + 1) mask bit num = getAndAdvance_maskLoop n fuel mask bit num := by
  intro fuel
  induction fuel with
  | zero =>
    intro mask bit num h
    obtain rfl : bit = 0 := by omega
    simp [getAndAdvance_maskLoop]
  | succ fuel ih =>
    intro mask bit num h
    conv_lhs => rw [getAndAdvance_maskLoop]
    conv_rhs => rw [getAndAdvance_maskLoop]
    rw [ih _ _ _ (by rw [Nat.shiftRight_eq_div_pow]; omega)]

theorem operatorStar_maskLoop_fuel (n : Nat) : ∀ (fuel mask bit num : Nat), bit < 2 ^ fuel →
    operatorStar_maskLoop n (fuel + 1) mask bit num = operatorStar_maskLoop n fuel mask bit num := by
  intro fuel
  induction fuel with
  | zero =>
    intro mask bit num h
    obtain rfl : bit = 0 := by omega
    simp [operatorStar_maskLoop]
  | succ fuel ih =>
    intro mask bit num h
    conv_lhs => rw [operatorStar_maskLoop]
    conv_rhs => rw [operatorStar_maskLoop]
    rw [ih _ _ _ (by rw [Nat.shiftRight_eq_div_pow]; omega)]

theorem isValidString_bitLoop_fuel (n : Nat) : ∀ (fuel bit num : Nat), bit < 2 ^ fuel →
    isValidString_bitLoop n (fuel + 1) bit num = isValidString_bitLoop n fuel bit num := by
  intro fuel
  induction fuel with
  | zero =>
    intro bit num h
    obtain rfl : bit = 0 := by omega
    simp [isValidString_bitLoop]
  | succ fuel ih =>
    intro bit num h
    conv_lhs => rw [isValidString_bitLoop]
    conv_rhs => rw [isValidString_bitLoop]
    rw [ih _ _ (by rw [Nat.shiftRight_eq_div_pow]; omega)]

theorem length_bitLoop_fuel (n : Nat) : ∀ (fuel bit d : Nat), bit < 2 ^ fuel →
    length_bitLoop n (fuel + 1) bit d = length_bitLoop n fuel bit d := by
  intro fuel
  induction fuel with
  | zero =>
    intro bit d h
    obtain rfl : bit = 0 := by omega
    simp [length_bitLoop]
  | succ fuel ih =>
    intro bit d h
    conv_lhs => rw [length_bitLoop]
    conv_rhs => rw [length_bitLoop]
    rw [ih _ _ (by rw [Nat.shiftRight_eq_div_pow]; omega)]

theorem length_loop_fuel (mem : Memory) : ∀ (fuel d count : Nat), mem.length < fuel + d →
    length_loop mem (fuel + 1) d count = length_loop mem fuel d count := by
  intro fuel
  induction fuel with
  | zero =>
    intro d count h
    have hm : mem[d]? = none := List.getElem?_eq_none (by omega)
    simp [length_loop, hm]
  | succ fuel ih =>
    intro d count h
    conv_lhs => rw [length_loop]
    conv_rhs => rw [length_loop]
    cases hm : mem[d]? with
    | none => rfl
    | some n =>
      simp only []
      have hd : d + 1 ≤ length_bitLoop n 32 0x40 (d + 1) := by
        rw [length_bitLoop_add]; omega
      rw [ih _ _ (by omega), ih (d + 1) _ (by omega)]

theorem writeAll_loop_fuel : ∀ (fuel : Nat) (mem : Memory) (d s : Nat), mem.length < fuel + s →
    writeAll_loop (fuel + 1) mem d s = writeAll_loop fuel mem d s := by
  intro fuel
  induction fuel with
  | zero =>
    intro mem d s h
    have hm : mem[s]? = none := List.getElem?_eq_none (by omega)
    simp [writeAll_loop, hm]
  | succ fuel ih =>
    intro mem d s h
    conv_lhs => rw [writeAll_loop]
    conv_rhs => rw [writeAll_loop]
    cases hm : mem[s]? with
    | none => rfl
    | some v =>
      simp only []
      cases hs : storeByte mem d v with
      | none => rfl
      | some mem1 =>
        simp only []
        obtain ⟨_, rfl⟩ := storeByte_eq_some.mp hs
        split_ifs
        · exact ih _ _ _ (by rw [List.length_set]; omega)
        · rfl

/-! ## `isValidString` looks at the first byte only -/

set_option maxRecDepth 8192 in
theorem isValidString_lead_facts : ∀ b < 256, 0xC0 ≤ b →
    isValidString_bitLoop b 32 0x40 0 ≠ some 0 ∧ (b &&& 0xc0) ≠ 0x80 := by
  decide

set_option maxRecDepth 8192 in
theorem isValidString_cont_facts : ∀ b < 0xC0, 0x80 ≤ b →
    isValidString_bitLoop b 32 0x40 0 = some 0 := by
  decide

theorem isValidString_loop_first_byte (mem : Memory) (p b : Nat) (hb : mem[p]? = some b)
    (hlt : b < 256) : ∀ m, isValidString_loop mem (m + 1) p = some (decide (b < 0xC0)) := by
  have hstep : ∀ m, isValidString_loop mem m p = some true ∨ ∃ k, m = k + 1 := by
    intro m
    cases m with
    | zero => exact Or.inl rfl
    | succ k => exact Or.inr ⟨k, rfl⟩
  intro m
  induction m with
  | zero =>
    rw [isValidString_loop]
    simp only [hb]
    by_cases h0 : b = 0
    · simp [h0]
    rw [if_neg h0]
    by_cases h1 : 0x80 ≤ b
    · rw [if_pos h1]
      by_cases h2 : b < 0xC0
      · simp [isValidString_cont_facts b h2 h1, isValidString_contLoop, isValidString_loop, h2]
      · obtain ⟨f1, f2⟩ := isValidString_lead_facts b hlt (by omega)
        cases hk : isValidString_bitLoop b 32 0x40 0 with
        | none => simp [h2]
        | some k =>
          obtain ⟨j, rfl⟩ : ∃ j, k = j + 1 := ⟨k - 1, by
            have : k ≠ 0 := fun h => f1 (by rw [hk, h])
            omega⟩
          simp [isValidString_contLoop, hb, f2, h2]
    · rw [if_neg h1]
      have : b < 0xC0 := by omega
      simp [isValidString_loop, this]
  | succ m ih =>
    rw [isValidString_loop]
    simp only [hb]
    by_cases h0 : b = 0
    · simp [h0]
    rw [if_neg h0]
    by_cases h1 : 0x80 ≤ b
    · rw [if_pos h1]
      by_cases h2 : b < 0xC0
      · simp only [isValidString_cont_facts b h2 h1, isValidString_contLoop]
        exact ih
      · obtain ⟨f1, f2⟩ := isValidString_lead_facts b hlt (by omega)
        cases hk : isValidString_bitLoop b 32 0x40 0 with
        | none => simp [h2]
        | some k =>
          obtain ⟨j, rfl⟩ : ∃ j, k = j + 1 := ⟨k - 1, by
            have : k ≠ 0 := fun h => f1 (by rw [hk, h])
            omega⟩
          simp [isValidString_contLoop, hb, f2, h2]
    · rw [if_neg h1]
      exact ih

theorem isValidString_first_byte_only (mem : Memory) (p b : Nat) (maxBytesToRead : Int)
    (hb : mem[p]? = some b) (hlt : b < 256) (hpos : 0 < maxBytesToRead) :
    isValidString mem p maxBytesToRead = some (decide (b < 0xC0)) := by
  obtain ⟨m, hm⟩ : ∃ m, maxBytesToRead.toNat = m + 1 := ⟨maxBytesToRead.toNat - 1, by omega⟩
  rw [isValidString, hm]
  exact isValidString_loop_first_byte mem p b hb hlt m

/-! ## The claims -/

/-- C1: round trip through `write` and `getAndAdvance`.  For every code point
`c ≤ 0x10FFFF` and every position `p` with room for the encoding, `write (c)`
at `p` succeeds, and `getAndAdvance` on a cursor at `p` of the resulting
buffer returns `c` and leaves the cursor exactly where `write` left the
writing cursor. -/
theorem write_getAndAdvance_roundtrip (mem : Memory) (p c : Nat) (hc : c ≤ 0x10FFFF)
    (hroom : p + getBytesRequiredFor c ≤ mem.length) :
    ∃ mem1 p1, write mem p c = some (mem1, p1) ∧ getAndAdvance mem1 p = some (c, p1) := by
  obtain ⟨mem1, hw, -, hh, -⟩ := write_spec mem p c hroom
  exact ⟨mem1, _, hw, getAndAdvance_standardBytes hc hh⟩

/-- Witness of C1 at `c = 0x20AC`: the bytes written are `E2 82 AC`, and they
decode back to `0x20AC`, consuming 3 bytes. -/
theorem write_getAndAdvance_roundtrip_witness :
    (0x20AC ≤ 0x10FFFF ∧ 0 + getBytesRequiredFor 0x20AC ≤ [0, 0, 0, 0].length)
    ∧ (∃ mem1 p1, write [0, 0, 0, 0] 0 0x20AC = some (mem1, p1)
        ∧ getAndAdvance mem1 0 = some (0x20AC, p1))
    ∧ write [0, 0, 0, 0] 0 0x20AC = some ([0xE2, 0x82, 0xAC, 0], 3)
    ∧ getAndAdvance [0xE2, 0x82, 0xAC, 0] 0 = some (0x20AC, 3) :=
  ⟨⟨by decide, by decide⟩,
    write_getAndAdvance_roundtrip [0, 0, 0, 0] 0 0x20AC (by decide) (by decide),
    by decide, by decide⟩

/-- C2: length prediction and actual write stay in lock-step.  For every value
`c` (every 32-bit value in particular) and every position `p` with
`getBytesRequiredFor c` bytes of room, `write (c)` succeeds, advances the
cursor by exactly `getBytesRequiredFor c` bytes, and changes no byte outside
these `getBytesRequiredFor c` bytes. -/
theorem write_advances_by_getBytesRequiredFor (mem : Memory) (p c : Nat)
    (hroom : p + getBytesRequiredFor c ≤ mem.length) :
    ∃ mem1, write mem p c = some (mem1, p + getBytesRequiredFor c)
      ∧ mem1.length = mem.length
      ∧ ∀ j, (j < p ∨ p + getBytesRequiredFor c ≤ j) → mem1[j]? = mem[j]? := by
  obtain ⟨mem1, hw, hl, -, hf⟩ := write_spec mem p c hroom
  exact ⟨mem1, hw, hl, hf⟩

/-- Witness of C2 at the largest 32-bit value, written at position 1 of a
6-byte buffer: 4 bytes predicted, 4 bytes written. -/
theorem write_advances_by_getBytesRequiredFor_witness :
    1 + getBytesRequiredFor 0xFFFFFFFF ≤ [7, 7, 7, 7, 7, 7].length
    ∧ (∃ mem1, write [7, 7, 7, 7, 7, 7] 1 0xFFFFFFFF
          = some (mem1, 1 + getBytesRequiredFor 0xFFFFFFFF)
        ∧ mem1.length = [7, 7, 7, 7, 7, 7].length
        ∧ ∀ j, (j < 1 ∨ 1 + getBytesRequiredFor 0xFFFFFFFF ≤ j) →
            mem1[j]? = [7, 7, 7, 7, 7, 7][j]?)
    ∧ getBytesRequiredFor 0xFFFFFFFF = 4
    ∧ write [7, 7, 7, 7, 7, 7] 1 0xFFFFFFFF = some ([7, 0xFF, 0xBF, 0xBF, 0xBF, 7], 5) :=
  ⟨by decide, write_advances_by_getBytesRequiredFor [7, 7, 7, 7, 7, 7] 1 0xFFFFFFFF (by decide),
    by decide, by decide⟩

/-- C3: `write` emits the standard UTF-8 byte sequence.  For every
`c ≤ 0x10FFFF`, with `n = extraByteCount c`, `write (c)` at a position with
room stores exactly the `n + 1` bytes of `standardBytes c` (the byte `c` when
`n = 0`; otherwise the lead byte, the low 8 bits of
`(0xFF << (7 - n)) | (c >> 6n)`, then `0x80 | ((c >> 6i) & 0x3F)` for
`i = n-1` down to `0`), and when `n > 0` the lead byte has exactly `n + 1`
leading one bits followed by a zero bit. -/
theorem write_emits_standardBytes (mem : Memory) (p c : Nat) (hc : c ≤ 0x10FFFF)
    (hroom : p + (extraByteCount c + 1) ≤ mem.length) :
    ∃ mem1, write mem p c = some (mem1, p + (extraByteCount c + 1))
      ∧ (standardBytes c).length = extraByteCount c + 1
      ∧ holdsAt mem1 p (standardBytes c)
      ∧ (0 < extraByteCount c → ∀ lead, mem1[p]? = some lead →
          lead = ((0xFF <<< (7 - extraByteCount c)) ||| (c >>> (6 * extraByteCount c))) % 256
          ∧ hasLeadingOnes lead (extraByteCount c + 1)) := by
  rw [extraByteCount_add_one] at hroom ⊢
  obtain ⟨mem1, hw, -, hh, -⟩ := write_spec mem p c hroom
  refine ⟨mem1, hw, standardBytes_length c, hh, ?_⟩
  intro hn lead hlead
  have hpos : 0 < (standardBytes c).length := by
    rw [standardBytes_length, ← extraByteCount_add_one]; omega
  have h0 := hh 0 hpos
  rw [Nat.add_zero, hlead] at h0
  have hne : ¬ extraByteCount c = 0 := by omega
  constructor
  · have : (standardBytes c)[0]? = some (((0xFF <<< (7 - extraByteCount c)) |||
        (c >>> (6 * extraByteCount c))) % 256) := by
      simp [standardBytes, hne]
    rw [this] at h0
    exact Option.some.inj h0
  · unfold hasLeadingOnes
    by_cases h1 : c < 0x80
    · simp [extraByteCount, h1] at hn
    by_cases h2 : c < 0x800
    · have e : extraByteCount c = 1 := by
        unfold extraByteCount; rw [if_neg h1, if_pos h2]
      rw [standardBytes_two (by omega) h2] at h0
      simp only [List.getElem?_cons_zero, Option.some.injEq] at h0
      subst h0
      rw [← extraByteCount_add_one, e, Nat.shiftRight_eq_div_pow]
      omega
    by_cases h3 : c < 0x10000
    · have e : extraByteCount c = 2 := by
        unfold extraByteCount; rw [if_neg h1, if_neg h2, if_pos h3]
      rw [standardBytes_three (by omega) h3] at h0
      simp only [List.getElem?_cons_zero, Option.some.injEq] at h0
      subst h0
      rw [← extraByteCount_add_one, e, Nat.shiftRight_eq_div_pow]
      omega
    · have e : extraByteCount c = 3 := by
        unfold extraByteCount; rw [if_neg h1, if_neg h2, if_neg h3]
      rw [standardBytes_four (by omega) (by omega)] at h0
      simp only [List.getElem?_cons_zero, Option.some.injEq] at h0
      subst h0
      rw [← extraByteCount_add_one, e, Nat.shiftRight_eq_div_pow]
      omega

/-- Witness of C3 at `c = 0x20AC`: `write` stores exactly `E2 82 AC`. -/
theorem write_emits_standardBytes_witness :
    (0x20AC ≤ 0x10FFFF ∧ 0 + (extraByteCount 0x20AC + 1) ≤ [0, 0, 0, 0].length)
    ∧ (∃ mem1, write [0, 0, 0, 0] 0 0x20AC = some (mem1, 0 + (extraByteCount 0x20AC + 1))
      ∧ (standardBytes 0x20AC).length = extraByteCount 0x20AC + 1
      ∧ holdsAt mem1 0 (standardBytes 0x20AC)
      ∧ (0 < extraByteCount 0x20AC → ∀ lead, mem1[0]? = some lead →
          lead = ((0xFF <<< (7 - extraByteCount 0x20AC))
            ||| (0x20AC >>> (6 * extraByteCount 0x20AC))) % 256
          ∧ hasLeadingOnes lead (extraByteCount 0x20AC + 1)))
    ∧ standardBytes 0x20AC = [0xE2, 0x82, 0xAC]
    ∧ write [9, 9, 9, 9] 0 0x20AC = some ([0xE2, 0x82, 0xAC, 9], 3) :=
  ⟨⟨by decide, by decide⟩,
    write_emits_standardBytes [0, 0, 0, 0] 0 0x20AC (by decide) (by decide),
    by decide, by decide⟩

/-- C4 (the code departs from the claim): on the 4-byte sequence `F0 9F 98 80`,
which `write (0x1F600)` produces, `getAndAdvance` returns `0x1F600` but
`operator*` at the same position returns `0x107D8`: its lead-byte loop stops
at `bit > 0x10` where `getAndAdvance` has `bit > 0x8`, so it reads only two
continuation bytes and keeps one lead bit in the value. -/
theorem operatorStar_disagrees_on_four_byte_sequence :
    write [0, 0, 0, 0, 0] 0 0x1F600 = some ([0xF0, 0x9F, 0x98, 0x80, 0], 4)
    ∧ getAndAdvance [0xF0, 0x9F, 0x98, 0x80, 0] 0 = some (0x1F600, 4)
    ∧ operatorStar [0xF0, 0x9F, 0x98, 0x80, 0] 0 = some 0x107D8 := by
  decide

/-- C5: length agreement on well-formed text.  For every list `cs` of non-zero
code points each `≤ 0x10FFFF`, in the buffer obtained by `write`-ing each
element in order and then a zero byte, `length ()` at the start is the number
of elements of `cs`, and that many `getAndAdvance ()` calls return the
elements of `cs` in order, `isEmpty ()` being false before each of them and
true after the last. -/
theorem length_agrees_on_written_text (cs : List Nat) (mem0 m1 m2 : Memory) (p p1 p2 : Nat)
    (hcs : ∀ c ∈ cs, c ≠ 0 ∧ c ≤ 0x10FFFF)
    (hw : writeEach cs mem0 p = some (m1, p1)) (hz : write m1 p1 0 = some (m2, p2)) :
    length m2 p = some cs.length ∧ readsExactly m2 p cs = true := by
  obtain ⟨e1, -, e3, -⟩ := writeEach_spec cs mem0 m1 p p1 hw
  obtain ⟨m3, hw3, hl3, hh3, hf3⟩ := write_spec m1 p1 0 (write_room hz)
  rw [hz] at hw3
  simp only [Option.some.injEq, Prod.mk.injEq] at hw3
  obtain ⟨rfl, -⟩ := hw3
  have hh : holdsAt m2 p (encodeAll cs ++ [0]) := by
    rw [holdsAt_append, ← e1]
    refine ⟨holdsAt_frame e3 fun j _ hj => hf3 j (Or.inl (by omega)), ?_⟩
    rw [standardBytes_one (by omega)] at hh3
    exact hh3
  refine ⟨?_, readsExactly_encodeAll cs m2 p hcs hh⟩
  have hb := holdsAt_bound hh
  simp only [List.append_eq_nil, List.cons_ne_self, and_false, false_or, List.length_append,
    List.length_singleton] at hb
  have hlen : cs.length ≤ (encodeAll cs).length := by
    clear hcs hw hh hb e1 e3
    induction cs with
    | nil => simp
    | cons c cs ih =>
      have := standardBytes_length c
      have h1 : 1 ≤ getBytesRequiredFor c := by unfold getBytesRequiredFor; split_ifs <;> omega
      simp only [encodeAll, List.length_append, List.length_cons]
      omega
  have := length_loop_encodeAll cs m2 p 0 (m2.length + 1) hcs hh (by omega)
  simpa [length] using this

/-- Witness of C5: the bytes `[0x41, 0x00]` give length 1, `getAndAdvance`
returns `0x41`, and `isEmpty` is true afterwards. -/
theorem length_agrees_on_written_text_witness :
    ((∀ c ∈ [0x41], c ≠ 0 ∧ c ≤ 0x10FFFF)
      ∧ writeEach [0x41] [7, 7] 0 = some ([0x41, 7], 1)
      ∧ write [0x41, 7] 1 0 = some ([0x41, 0], 2))
    ∧ (length [0x41, 0] 0 = some [0x41].length ∧ readsExactly [0x41, 0] 0 [0x41] = true)
    ∧ getAndAdvance [0x41, 0] 0 = some (0x41, 1) ∧ isEmpty [0x41, 0] 1 = some true :=
  ⟨⟨by decide, by decide, by decide⟩,
    length_agrees_on_written_text [0x41] [7, 7] [0x41, 7] [0x41, 0] 0 1 2
      (by decide) (by decide) (by decide),
    by decide, by decide⟩

/-- C6 (the code departs from the claim): `isValidString` rejects well-formed
text.  The buffer `C3 A9 00` is what `write (0xE9)` followed by a zero byte
produces, and `F0 9F 98 80 00` what `write (0x1F600)` and a zero byte produce;
on both `isValidString` returns false with `maxBytesToRead` equal to the
buffer's byte length.  The scan never steps past the lead byte, which it then
tests as if it were the first continuation byte. -/
theorem isValidString_rejects_written_text :
    writeEach [0xE9] [7, 7, 7] 0 = some ([0xC3, 0xA9, 7], 2)
    ∧ write [0xC3, 0xA9, 7] 2 0 = some ([0xC3, 0xA9, 0], 3)
    ∧ isValidString [0xC3, 0xA9, 0] 0 3 = some false
    ∧ isValidString [0xF0, 0x9F, 0x98, 0x80, 0] 0 5 = some false := by
  decide

/-- C7 (the code departs from the claim): `isValidString` accepts malformed
text.  On `41 E2 41 00` (a lead byte without its continuation bytes) and on
`80 00` (a continuation byte without a lead byte), with `maxBytesToRead = 4`,
it returns true: the scan never steps past a byte that is not a lead byte. -/
theorem isValidString_accepts_malformed_text :
    isValidString [0x41, 0xE2, 0x41, 0] 0 4 = some true
    ∧ isValidString [0x80, 0] 0 4 = some true := by
  decide

/-- C8 (the code departs from the claim): `canRepresent (0x10FFFF)` is false,
the comparison being `< 0x10ffff`, while its neighbour `0x10FFFE` is accepted
and `write` and `getAndAdvance` do represent `0x10FFFF`. -/
theorem canRepresent_rejects_last_code_point :
    canRepresent 0x10FFFF = false ∧ canRepresent 0x10FFFE = true
    ∧ write [0, 0, 0, 0] 0 0x10FFFF = some ([0xF4, 0x8F, 0xBF, 0xBF], 4)
    ∧ getAndAdvance [0xF4, 0x8F, 0xBF, 0xBF] 0 = some (0x10FFFF, 4) := by
  decide

/-- C9: same-encoding `writeAll` copies the source string verbatim.  When the
first zero byte of the source is at offset `k` from `s`, and the destination
`d` has room for `k + 1` bytes that do not overlap the source string, then
`writeAll` succeeds; afterwards the destination bytes at offsets `0..k` equal
the source bytes at offsets `0..k` (the last being the terminator), every byte
outside these destination offsets is unchanged, and in particular the source
string is unchanged. -/
theorem writeAll_copies_verbatim (mem : Memory) (d s k : Nat)
    (hnz : ∀ i, i < k → ∃ v, mem[s + i]? = some v ∧ v ≠ 0) (hz : mem[s + k]? = some 0)
    (hroom : d + k < mem.length) (hdisj : d + k < s ∨ s + k < d) :
    ∃ mem1 d1, writeAll mem d s = some (mem1, d1)
      ∧ mem1.length = mem.length
      ∧ (∀ i, i ≤ k → mem1[d + i]? = mem[s + i]?)
      ∧ mem1[d + k]? = some 0
      ∧ (∀ j, (j < d ∨ d + k < j) → mem1[j]? = mem[j]?)
      ∧ (∀ i, i ≤ k → mem1[s + i]? = mem[s + i]?) := by
  have hs : s + k < mem.length := (List.getElem?_eq_some.mp hz).1
  obtain ⟨mem1, e1, e2, e3, e4⟩ := writeAll_loop_spec k (mem.length + 1) mem d s (by omega)
    hnz hz hroom (by omega)
  refine ⟨mem1, d + k, e1, e2, e3, ?_, e4, fun i hi => e4 _ (by omega)⟩
  rw [e3 k (Nat.le_refl k), hz]

/-- Witness of C9: the string `"AB"` at address 0 copied to address 3. -/
theorem writeAll_copies_verbatim_witness :
    ((∀ i, i < 2 → ∃ v, [0x41, 0x42, 0, 7, 7, 7, 7][0 + i]? = some v ∧ v ≠ 0)
      ∧ [0x41, 0x42, 0, 7, 7, 7, 7][0 + 2]? = some 0
      ∧ 3 + 2 < [0x41, 0x42, 0, 7, 7, 7, 7].length ∧ (3 + 2 < 0 ∨ 0 + 2 < 3))
    ∧ (∃ mem1 d1, writeAll [0x41, 0x42, 0, 7, 7, 7, 7] 3 0 = some (mem1, d1)
      ∧ mem1.length = [0x41, 0x42, 0, 7, 7, 7, 7].length
      ∧ (∀ i, i ≤ 2 → mem1[3 + i]? = [0x41, 0x42, 0, 7, 7, 7, 7][0 + i]?)
      ∧ mem1[3 + 2]? = some 0
      ∧ (∀ j, (j < 3 ∨ 3 + 2 < j) → mem1[j]? = [0x41, 0x42, 0, 7, 7, 7, 7][j]?)
      ∧ (∀ i, i ≤ 2 → mem1[0 + i]? = [0x41, 0x42, 0, 7, 7, 7, 7][0 + i]?))
    ∧ writeAll [0x41, 0x42, 0, 7, 7, 7, 7] 3 0 = some ([0x41, 0x42, 0, 0x41, 0x42, 0, 7], 5) :=
  ⟨⟨by decide, by decide, by decide, by decide⟩,
    writeAll_copies_verbatim [0x41, 0x42, 0, 7, 7, 7, 7] 3 0 2 (by decide) (by decide)
      (by decide) (by decide),
    by decide⟩

/-- C10, the claim as stated fails: copying the string `"AB"` (first zero byte
at offset `k = 2`) from address 0 to address 3 leaves the destination cursor
at `5 = 3 + k`, on the copied terminator, and not at `3 + k + 1`. -/
theorem writeAll_final_position_counterexample :
    [0x41, 0x42, 0, 7, 7, 7, 7][0 + 0]? = some 0x41
    ∧ [0x41, 0x42, 0, 7, 7, 7, 7][0 + 1]? = some 0x42
    ∧ [0x41, 0x42, 0, 7, 7, 7, 7][0 + 2]? = some 0
    ∧ writeAll [0x41, 0x42, 0, 7, 7, 7, 7] 3 0 = some ([0x41, 0x42, 0, 0x41, 0x42, 0, 7], 3 + 2)
    ∧ (writeAll [0x41, 0x42, 0, 7, 7, 7, 7] 3 0).map Prod.snd ≠ some (3 + 2 + 1) := by
  decide

/-- C10, amended: when the first zero byte of the source is at offset `k` from
`s` and the destination `d` has room for `k + 1` bytes and does not begin
inside the source string, `writeAll` succeeds and leaves the destination
cursor on the copied terminator, at offset `k` from its original position
(`isEmpty ()` is true there). -/
theorem writeAll_final_position (mem : Memory) (d s k : Nat)
    (hnz : ∀ i, i < k → ∃ v, mem[s + i]? = some v ∧ v ≠ 0) (hz : mem[s + k]? = some 0)
    (hroom : d + k < mem.length) (hov : d ≤ s ∨ s + k < d) :
    ∃ mem1, writeAll mem d s = some (mem1, d + k) ∧ isEmpty mem1 (d + k) = some true := by
  have hs : s + k < mem.length := (List.getElem?_eq_some.mp hz).1
  obtain ⟨mem1, e1, -, e3, -⟩ := writeAll_loop_spec k (mem.length + 1) mem d s (by omega)
    hnz hz hroom hov
  refine ⟨mem1, e1, ?_⟩
  have := e3 k (Nat.le_refl k)
  rw [hz] at this
  simp [isEmpty, this]

/-- Witness of the amended C10: the string `"AB"` at address 0 copied to
address 3 leaves the cursor at address 5. -/
theorem writeAll_final_position_witness :
    ((∀ i, i < 2 → ∃ v, [0x41, 0x42, 0, 7, 7, 7, 7][0 + i]? = some v ∧ v ≠ 0)
      ∧ [0x41, 0x42, 0, 7, 7, 7, 7][0 + 2]? = some 0
      ∧ 3 + 2 < [0x41, 0x42, 0, 7, 7, 7, 7].length ∧ (3 ≤ 0 ∨ 0 + 2 < 3))
    ∧ ∃ mem1, writeAll [0x41, 0x42, 0, 7, 7, 7, 7] 3 0 = some (mem1, 3 + 2)
      ∧ isEmpty mem1 (3 + 2) = some true :=
  ⟨⟨by decide, by decide, by decide, by decide⟩,
    writeAll_final_position [0x41, 0x42, 0, 7, 7, 7, 7] 3 0 2 (by decide) (by decide)
      (by decide) (by decide)⟩


/-! ## The claims, continued -/

/-- C11: `writeNull` writes the terminator in place.  For every buffer and
every cursor position `p` inside it, `writeNull ()` succeeds; afterwards the
byte at `p` is 0, the cursor position is still `p`, every other byte of the
buffer is unchanged, and `isEmpty ()` is true. -/
theorem writeNull_in_place (mem : Memory) (p : Nat) (hp : p < mem.length) :
    ∃ mem1, writeNull mem p = some (mem1, p)
      ∧ mem1[p]? = some 0
      ∧ mem1.length = mem.length
      ∧ (∀ j, j ≠ p → mem1[j]? = mem[j]?)
      ∧ isEmpty mem1 p = some true := by
  have h0 : (mem.set p 0)[p]? = some 0 := List.getElem?_set_self hp
  refine ⟨mem.set p 0, by simp [writeNull, storeByte, hp], h0, by simp, ?_, ?_⟩
  · intro j hj
    exact List.getElem?_set_ne (Ne.symm hj)
  · simp [isEmpty, h0]

/-- Witness of C11: `writeNull` at position 1 of the buffer `41 42 43`. -/
theorem writeNull_in_place_witness :
    1 < [0x41, 0x42, 0x43].length
    ∧ (∃ mem1, writeNull [0x41, 0x42, 0x43] 1 = some (mem1, 1)
      ∧ mem1[1]? = some 0
      ∧ mem1.length = [0x41, 0x42, 0x43].length
      ∧ (∀ j, j ≠ 1 → mem1[j]? = [0x41, 0x42, 0x43][j]?)
      ∧ isEmpty mem1 1 = some true)
    ∧ writeNull [0x41, 0x42, 0x43] 1 = some ([0x41, 0, 0x43], 1) :=
  ⟨by decide, writeNull_in_place [0x41, 0x42, 0x43] 1 (by decide), by decide⟩

/-- C12 (the code departs from the claim): on the buffer that `write (0x41)`,
`write (0x1F600)` and a zero byte produce, `operator[] (1)` returns `0x107D8`
and not `0x1F600`, and on the buffer of `write (0x1F600)` alone
`operator[] (0)` returns `0x107D8`: the index operator ends in `operator*`,
which reads only two continuation bytes.  For the 3-byte character `0x20AC`
at index 1 the result is right. -/
theorem operatorIndex_wrong_on_four_byte_character :
    writeEach [0x41, 0x1F600] [7, 7, 7, 7, 7, 7] 0 = some ([0x41, 0xF0, 0x9F, 0x98, 0x80, 7], 5)
    ∧ write [0x41, 0xF0, 0x9F, 0x98, 0x80, 7] 5 0 = some ([0x41, 0xF0, 0x9F, 0x98, 0x80, 0], 6)
    ∧ operatorIndex [0x41, 0xF0, 0x9F, 0x98, 0x80, 0] 0 1 = some 0x107D8
    ∧ operatorIndex [0xF0, 0x9F, 0x98, 0x80, 0] 0 0 = some 0x107D8
    ∧ operatorIndex [0x41, 0xE2, 0x82, 0xAC, 0] 0 1 = some 0x20AC := by
  decide

/-- C15 (the code departs from the claim): `operator!=` returns
`data == other.data`, the same value as `operator==`, for every pair of
cursors: for two cursors at the same position both are true, for two cursors
at different positions both are false. -/
theorem operatorNe_equals_operatorEq :
    (∀ a b, operatorNe a b = operatorEq a b)
    ∧ operatorEq 3 3 = true ∧ operatorNe 3 3 = true
    ∧ operatorEq 3 4 = false ∧ operatorNe 3 4 = false :=
  ⟨fun _ _ => rfl, by decide, by decide, by decide, by decide⟩

theorem lead4_partial_facts (l : Nat) (h1 : 0xF0 ≤ l) (h2 : l ≤ 0xF7) :
    getAndAdvance_maskLoop l 32 0x7f 0x40 0 = (0x0f, 3) ∧ l &&& 0x0f < 16 ∧ ¬ l < 0x80 := by
  obtain ⟨-, f1, f2, -, -⟩ := lead4_facts (l - 0xF0) (by omega)
  have e : 0xF0 + (l - 0xF0) = l := by omega
  rw [e] at f1 f2
  exact ⟨f1, by omega, by omega⟩

/-- C16: malformed tolerance.  For every buffer of exactly 3 bytes `[L, C, T]`
with `0xF0 ≤ L ≤ 0xF7` (a lead byte announcing 3 continuation bytes), `C` a
continuation byte (top bits `10`) and `T` not a continuation byte,
`getAndAdvance ()` at index 0 returns the partial value
`((L & 0x0F) << 6) | (C & 0x3F)` and stops at index 3; a read at an index
greater than 2 would be outside the buffer and give `none`. -/
theorem getAndAdvance_malformed_tolerance (l c t : Nat) (hl1 : 0xF0 ≤ l) (hl2 : l ≤ 0xF7)
    (hc : c &&& 0xc0 = 0x80) (ht : t &&& 0xc0 ≠ 0x80) :
    getAndAdvance [l, c, t] 0 = some (((l &&& 0x0F) <<< 6) ||| (c &&& 0x3F), 3) := by
  obtain ⟨f1, f2, f3⟩ := lead4_partial_facts l hl1 hl2
  have e : ((l &&& 0x0f) <<< 6) % 2 ^ 32 = (l &&& 0x0f) <<< 6 := by
    rw [Nat.shiftLeft_eq]
    exact Nat.mod_eq_of_lt (by omega)
  simp only [getAndAdvance, List.getElem?_cons_zero, f1, f3, if_false]
  rw [getAndAdvance_contLoop]
  simp only [Nat.zero_add, List.getElem?_cons_succ, List.getElem?_cons_zero, hc, ne_eq,
    not_true_eq_false, if_false, e]
  rw [getAndAdvance_contLoop]
  simp [ht]

/-- Witness of C16: the buffer `F3 85 00`. -/
theorem getAndAdvance_malformed_tolerance_witness :
    (0xF0 ≤ 0xF3 ∧ 0xF3 ≤ 0xF7 ∧ 0x85 &&& 0xc0 = 0x80 ∧ 0 &&& 0xc0 ≠ 0x80)
    ∧ getAndAdvance [0xF3, 0x85, 0] 0 = some (((0xF3 &&& 0x0F) <<< 6) ||| (0x85 &&& 0x3F), 3)
    ∧ ((0xF3 &&& 0x0F) <<< 6) ||| (0x85 &&& 0x3F) = 0xC5
    ∧ getAndAdvance [0xF3, 0x85] 0 = none :=
  ⟨⟨by decide, by decide, by decide, by decide⟩,
    getAndAdvance_malformed_tolerance 0xF3 0x85 0 (by decide) (by decide) (by decide) (by decide),
    by decide, by decide⟩

/-! ## Bounds on single steps -/

theorem operatorInc_loop_add (n : Nat) : ∀ (fuel bit d : Nat),
    operatorInc_loop n fuel bit d = d + operatorInc_loop n fuel bit 0 := by
  intro fuel
  induction fuel with
  | zero => intro bit d; simp [operatorInc_loop]
  | succ fuel ih =>
    intro bit d
    unfold operatorInc_loop
    split_ifs
    · rw [ih (bit >>> 1) (d + 1), ih (bit >>> 1) (0 + 1)]; omega
    · rfl

theorem operatorInc_loop_le (n : Nat) : ∀ (fuel bit d k : Nat), bit ≤ 8 * 2 ^ k →
    operatorInc_loop n fuel bit d ≤ d + k := by
  intro fuel
  induction fuel with
  | zero => intro bit d k _; simp [operatorInc_loop]
  | succ fuel ih =>
    intro bit d k hk
    unfold operatorInc_loop
    split_ifs with hc
    · obtain ⟨j, rfl⟩ : ∃ j, k = j + 1 := ⟨k - 1, by
        rcases k with _ | k
        · simp at hk; omega
        · simp⟩
      have := ih (bit >>> 1) (d + 1) j (by
        rw [Nat.shiftRight_eq_div_pow]
        rw [pow_succ] at hk
        omega)
      omega
    · omega

theorem getAndAdvance_maskLoop_le (n : Nat) : ∀ (fuel mask bit num k : Nat), bit ≤ 8 * 2 ^ k →
    (getAndAdvance_maskLoop n fuel mask bit num).2 ≤ num + k := by
  intro fuel
  induction fuel with
  | zero => intro mask bit num k _; simp [getAndAdvance_maskLoop]
  | succ fuel ih =>
    intro mask bit num k hk
    unfold getAndAdvance_maskLoop
    split_ifs with hc
    · obtain ⟨j, rfl⟩ : ∃ j, k = j + 1 := ⟨k - 1, by
        rcases k with _ | k
        · simp at hk; omega
        · simp⟩
      have := ih (mask >>> 1) (bit >>> 1) (num + 1) j (by
        rw [Nat.shiftRight_eq_div_pow]
        rw [pow_succ] at hk
        omega)
      omega
    · simp

theorem operatorStar_maskLoop_le (n : Nat) : ∀ (fuel mask bit num k : Nat), bit ≤ 16 * 2 ^ k →
    (operatorStar_maskLoop n fuel mask bit num).2 ≤ num + k := by
  intro fuel
  induction fuel with
  | zero => intro mask bit num k _; simp [operatorStar_maskLoop]
  | succ fuel ih =>
    intro mask bit num k hk
    unfold operatorStar_maskLoop
    split_ifs with hc
    · obtain ⟨j, rfl⟩ : ∃ j, k = j + 1 := ⟨k - 1, by
        rcases k with _ | k
        · simp at hk; omega
        · simp⟩
      have := ih (mask >>> 1) (bit >>> 1) (num + 1) j (by
        rw [Nat.shiftRight_eq_div_pow]
        rw [pow_succ] at hk
        omega)
      omega
    · simp

theorem getAndAdvance_contLoop_bounds (mem : Memory) : ∀ (k n d c q : Nat),
    getAndAdvance_contLoop mem k n d = some (c, q) → d ≤ q ∧ q ≤ d + k := by
  intro k
  induction k with
  | zero =>
    intro n d c q h
    simp only [getAndAdvance_contLoop, Option.some.injEq, Prod.mk.injEq] at h
    omega
  | succ k ih =>
    intro n d c q h
    unfold getAndAdvance_contLoop at h
    split at h
    · simp at h
    · split_ifs at h
      · simp only [Option.some.injEq, Prod.mk.injEq] at h
        omega
      · have := ih _ _ _ _ h
        omega

theorem getAndAdvance_contLoop_isSome (mem : Memory) : ∀ (k n d : Nat), d + k ≤ mem.length →
    (getAndAdvance_contLoop mem k n d).isSome := by
  intro k
  induction k with
  | zero => intro n d _; simp [getAndAdvance_contLoop]
  | succ k ih =>
    intro n d h
    have hd : d < mem.length := by omega
    unfold getAndAdvance_contLoop
    rw [List.getElem?_eq_getElem hd]
    simp only []
    split_ifs
    · simp
    · exact ih _ _ (by omega)

theorem operatorStar_contLoop_take (mem : Memory) (data : Nat) : ∀ (remaining i n : Nat),
    i + remaining ≤ 4 →
    operatorStar_contLoop (mem.take (data + 4)) data remaining i n
      = operatorStar_contLoop mem data remaining i n := by
  intro remaining
  induction remaining with
  | zero => intro i n _; simp [operatorStar_contLoop]
  | succ remaining ih =>
    intro i n h
    unfold operatorStar_contLoop
    rw [List.getElem?_take_of_lt (by omega)]
    cases mem[data + i]? with
    | none => rfl
    | some b =>
      simp only []
      split_ifs
      · rfl
      · exact ih (i + 1) _ (by omega)

theorem operatorStar_contLoop_isSome (mem : Memory) (data : Nat) : ∀ (remaining i n : Nat),
    data + i + remaining ≤ mem.length →
    (operatorStar_contLoop mem data remaining i n).isSome := by
  intro remaining
  induction remaining with
  | zero => intro i n _; simp [operatorStar_contLoop]
  | succ remaining ih =>
    intro i n h
    have hd : data + i < mem.length := by omega
    unfold operatorStar_contLoop
    rw [List.getElem?_eq_getElem hd]
    simp only []
    split_ifs
    · simp
    · exact ih _ _ (by omega)

theorem getAndAdvance_eq (mem : Memory) (p : Nat) :
    getAndAdvance mem p =
      match mem[p]? with
      | none => none
      | some byte =>
        if byte < 0x80 then some (byte, p + 1)
        else getAndAdvance_contLoop mem (getAndAdvance_maskLoop byte 32 0x7f 0x40 0).2
          (byte &&& (getAndAdvance_maskLoop byte 32 0x7f 0x40 0).1) (p + 1) := rfl

theorem operatorStar_eq (mem : Memory) (p : Nat) :
    operatorStar mem p =
      match mem[p]? with
      | none => none
      | some byte =>
        if byte < 0x80 then some byte
        else operatorStar_contLoop mem p (operatorStar_maskLoop byte 32 0x7f 0x40 0).2 1
          (byte &&& (operatorStar_maskLoop byte 32 0x7f 0x40 0).1) := rfl

/-- C19: every single-character step moves forward by between 1 and 4 bytes.
For every buffer content and every cursor position, `operator++ ()` and
`getAndAdvance ()`, when they return, have advanced the position by at least
1 and at most 4 bytes; `operator* ()` gives the same result on the buffer cut
off 4 bytes after the position, so it reads at most 4 bytes from there;
`operator++ ()` returns whenever the position is inside the buffer, and
`getAndAdvance ()` and `operator* ()` return whenever 4 bytes are left. -/
theorem single_step_moves_one_to_four (mem : Memory) (p : Nat) :
    (∀ q, operatorInc mem p = some q → p + 1 ≤ q ∧ q ≤ p + 4)
    ∧ (∀ c q, getAndAdvance mem p = some (c, q) → p + 1 ≤ q ∧ q ≤ p + 4)
    ∧ operatorStar (mem.take (p + 4)) p = operatorStar mem p
    ∧ (p < mem.length → (operatorInc mem p).isSome)
    ∧ (p + 4 ≤ mem.length → (getAndAdvance mem p).isSome ∧ (operatorStar mem p).isSome) := by
  refine ⟨?_, ?_, ?_, ?_, ?_⟩
  · intro q h
    unfold operatorInc at h
    split at h
    · simp at h
    · rename_i n _
      split_ifs at h
      · simp only [Option.some.injEq] at h; omega
      · simp only [Option.some.injEq] at h
        have h1 := operatorInc_loop_le n 32 0x40 (p + 1) 3 (by decide)
        have h2 := operatorInc_loop_add n 32 0x40 (p + 1)
        omega
  · intro c q h
    rw [getAndAdvance_eq] at h
    split at h
    · simp at h
    · rename_i n _
      split_ifs at h
      · simp only [Option.some.injEq, Prod.mk.injEq] at h; omega
      · have h1 := getAndAdvance_maskLoop_le n 32 0x7f 0x40 0 3 (by decide)
        have h2 := getAndAdvance_contLoop_bounds mem _ _ _ _ _ h
        omega
  · rw [operatorStar_eq, operatorStar_eq, List.getElem?_take_of_lt (by omega)]
    cases mem[p]? with
    | none => rfl
    | some n =>
      simp only []
      split_ifs
      · rfl
      · have h1 := operatorStar_maskLoop_le n 32 0x7f 0x40 0 2 (by decide)
        exact operatorStar_contLoop_take mem p _ 1 _ (by omega)
  · intro hp
    unfold operatorInc
    rw [List.getElem?_eq_getElem hp]
    simp only []
    split_ifs <;> simp
  · intro hp
    have hp0 : p < mem.length := by omega
    constructor
    · rw [getAndAdvance_eq, List.getElem?_eq_getElem hp0]
      simp only []
      split_ifs
      · simp
      · have h1 := getAndAdvance_maskLoop_le mem[p] 32 0x7f 0x40 0 3 (by decide)
        exact getAndAdvance_contLoop_isSome mem _ _ _ (by omega)
    · rw [operatorStar_eq, List.getElem?_eq_getElem hp0]
      simp only []
      split_ifs
      · simp
      · have h1 := operatorStar_maskLoop_le mem[p] 32 0x7f 0x40 0 2 (by decide)
        exact operatorStar_contLoop_isSome mem p _ 1 _ (by omega)

/-- Witness of C19 on the buffer `F0 9F 98 80 41 00`: the 4-byte character at
position 0 is passed in 4 bytes, the 1-byte character at position 4 in 1. -/
theorem single_step_moves_one_to_four_witness :
    ((∀ q, operatorInc [0xF0, 0x9F, 0x98, 0x80, 0x41, 0] 0 = some q → 0 + 1 ≤ q ∧ q ≤ 0 + 4)
      ∧ (∀ c q, getAndAdvance [0xF0, 0x9F, 0x98, 0x80, 0x41, 0] 0 = some (c, q) →
          0 + 1 ≤ q ∧ q ≤ 0 + 4)
      ∧ operatorStar ([0xF0, 0x9F, 0x98, 0x80, 0x41, 0].take (0 + 4)) 0
          = operatorStar [0xF0, 0x9F, 0x98, 0x80, 0x41, 0] 0
      ∧ (0 < [0xF0, 0x9F, 0x98, 0x80, 0x41, 0].length →
          (operatorInc [0xF0, 0x9F, 0x98, 0x80, 0x41, 0] 0).isSome)
      ∧ (0 + 4 ≤ [0xF0, 0x9F, 0x98, 0x80, 0x41, 0].length →
          (getAndAdvance [0xF0, 0x9F, 0x98, 0x80, 0x41, 0] 0).isSome
          ∧ (operatorStar [0xF0, 0x9F, 0x98, 0x80, 0x41, 0] 0).isSome))
    ∧ operatorInc [0xF0, 0x9F, 0x98, 0x80, 0x41, 0] 0 = some 4
    ∧ getAndAdvance [0xF0, 0x9F, 0x98, 0x80, 0x41, 0] 0 = some (0x1F600, 4)
    ∧ operatorInc [0xF0, 0x9F, 0x98, 0x80, 0x41, 0] 4 = some 5
    ∧ getAndAdvance [0xF0, 0x9F, 0x98, 0x80, 0x41, 0] 4 = some (0x41, 5)
    ∧ operatorInc [0xFF, 0xFF, 0xFF, 0xFF, 0xFF, 0] 0 = some 4
    ∧ getAndAdvance [0xFF, 0xFF, 0xFF, 0xFF, 0xFF, 0] 0 = some (0x0F, 2) :=
  ⟨single_step_moves_one_to_four [0xF0, 0x9F, 0x98, 0x80, 0x41, 0] 0,
    by decide, by decide, by decide, by decide, by decide, by decide⟩

/-! ## `operator++` against `getAndAdvance` -/

set_option maxRecDepth 8192 in
theorem operatorInc_loop_eq_maskLoop : ∀ b < 256,
    operatorInc_loop b 32 0x40 0 = (getAndAdvance_maskLoop b 32 0x7f 0x40 0).2 := by
  decide

theorem getAndAdvance_contLoop_full (mem : Memory) : ∀ (k n d : Nat), d + k ≤ mem.length →
    (∀ j, d ≤ j → j + 1 < d + k → ∃ v, mem[j]? = some v ∧ v &&& 0xc0 = 0x80) →
    ∃ c, getAndAdvance_contLoop mem k n d = some (c, d + k) := by
  intro k
  induction k with
  | zero => intro n d _ _; exact ⟨n, rfl⟩
  | succ k ih =>
    intro n d hin hcont
    have hd : d < mem.length := by omega
    unfold getAndAdvance_contLoop
    rw [List.getElem?_eq_getElem hd]
    simp only []
    split_ifs with hc
    · have hk : k = 0 := by
        by_contra hk
        obtain ⟨v, hv, hv1⟩ := hcont d (Nat.le_refl d) (by omega)
        rw [List.getElem?_eq_getElem hd] at hv
        rw [← Option.some.inj hv] at hv1
        exact hc hv1
      subst hk
      exact ⟨n, rfl⟩
    · obtain ⟨c, hc1⟩ := ih (((n <<< 6) % 2 ^ 32) ||| (mem[d] &&& 0x3f)) (d + 1) (by omega)
        (fun j hj1 hj2 => hcont j (by omega) (by omega))
      refine ⟨c, ?_⟩
      rw [hc1]
      congr 2
      omega

/-- C17, the claim as stated fails: on the buffer `E2 41 42 00` (a lead byte
announcing two continuation bytes, followed by the letter A) `operator++`
moves the cursor from 0 to 3, while `getAndAdvance` stops after the byte that
is not a continuation byte and leaves it at 2. -/
theorem operatorInc_getAndAdvance_counterexample :
    operatorInc [0xE2, 0x41, 0x42, 0] 0 = some 3
    ∧ getAndAdvance [0xE2, 0x41, 0x42, 0] 0 = some (2, 2)
    ∧ (getAndAdvance [0xE2, 0x41, 0x42, 0] 0).map Prod.snd ≠ operatorInc [0xE2, 0x41, 0x42, 0] 0 := by
  decide

/-- C17, amended: for every buffer content and every cursor position `p`, if
the bytes that `operator++ ()` skips lie inside the buffer and those of them
after the lead byte, the last one possibly excepted, are continuation bytes
(top bits `10`), as on every well-formed text, then the position after
`operator++ ()` is the position after `getAndAdvance ()` called from `p`. -/
theorem operatorInc_agrees_with_getAndAdvance (mem : Memory) (p b q : Nat)
    (hb : mem[p]? = some b) (hlt : b < 256) (hq : operatorInc mem p = some q)
    (hin : q ≤ mem.length)
    (hcont : ∀ j, p < j → j + 1 < q → ∃ v, mem[j]? = some v ∧ v &&& 0xc0 = 0x80) :
    ∃ c, getAndAdvance mem p = some (c, q) := by
  rw [getAndAdvance_eq, hb]
  unfold operatorInc at hq
  rw [hb] at hq
  simp only [] at hq ⊢
  split_ifs at hq ⊢ with h1
  · simp only [Option.some.injEq] at hq
    exact ⟨b, by rw [hq]⟩
  · simp only [Option.some.injEq] at hq
    rw [operatorInc_loop_add, operatorInc_loop_eq_maskLoop b hlt] at hq
    subst hq
    exact getAndAdvance_contLoop_full mem _ _ (p + 1) hin
      (fun j hj1 hj2 => hcont j (by omega) hj2)

/-- Witness of the amended C17: the 3-byte character `E2 82 AC` at position 0
(both step to 3), and the sequence `C3 41`, whose last announced byte is not a
continuation byte (both step to 2). -/
theorem operatorInc_agrees_with_getAndAdvance_witness :
    ([0xE2, 0x82, 0xAC, 0][0]? = some 0xE2 ∧ 0xE2 < 256
      ∧ operatorInc [0xE2, 0x82, 0xAC, 0] 0 = some 3 ∧ 3 ≤ [0xE2, 0x82, 0xAC, 0].length
      ∧ ∀ j, 0 < j → j + 1 < 3 → ∃ v, [0xE2, 0x82, 0xAC, 0][j]? = some v ∧ v &&& 0xc0 = 0x80)
    ∧ (∃ c, getAndAdvance [0xE2, 0x82, 0xAC, 0] 0 = some (c, 3))
    ∧ getAndAdvance [0xE2, 0x82, 0xAC, 0] 0 = some (0x20AC, 3)
    ∧ operatorInc [0xC3, 0x41, 0] 0 = some 2
    ∧ getAndAdvance [0xC3, 0x41, 0] 0 = some (3, 2) :=
  ⟨⟨by decide, by decide, by decide, by decide,
      fun j h1 h2 => by
        obtain rfl : j = 1 := by omega
        exact ⟨0x82, by decide, by decide⟩⟩,
    operatorInc_agrees_with_getAndAdvance [0xE2, 0x82, 0xAC, 0] 0 0xE2 3 (by decide) (by decide)
      (by decide) (by decide)
      (fun j h1 h2 => by
        obtain rfl : j = 1 := by omega
        exact ⟨0x82, by decide, by decide⟩),
    by decide, by decide, by decide⟩

/-! ## `length` on an illegal lead byte -/

theorem length_loop_count (mem : Memory) : ∀ (fuel d count k : Nat),
    length_loop mem fuel d (count + k) = (length_loop mem fuel d count).map (· + k) := by
  intro fuel
  induction fuel with
  | zero => intro d count k; rfl
  | succ fuel ih =>
    intro d count k
    unfold length_loop
    cases mem[d]? with
    | none => rfl
    | some n =>
      simp only []
      split_ifs
      · rw [← ih]; congr 1; omega
      · rfl
      · rw [← ih]; congr 1; omega

/-- C14, the claim as stated fails: on `FF`, seven non-zero bytes, the letter
A and the terminator, `length ()` returns 2, one more than on the same buffer
without the letter A: the letter after the illegal sequence is counted. -/
theorem length_after_illegal_lead_counterexample :
    length [0xFF, 1, 2, 3, 4, 5, 6, 7, 0x41, 0] 0 = some 2
    ∧ length [0xFF, 1, 2, 3, 4, 5, 6, 7, 0] 0 = some 1 := by
  decide

/-- C14, amended: for every buffer in which `length ()` meets the byte `0xFF`
(the byte whose continuation-bit scan runs out of mask bits), the `break`
leaves the inner loop only: the byte and the seven bytes after it are counted
as one character and counting goes on with the byte after them, so the
result is one more than `length ()` started 8 bytes further. -/
theorem length_continues_after_illegal_lead (mem : Memory) (p : Nat)
    (hff : mem[p]? = some 0xFF) :
    length mem p = (length mem (p + 8)).map (· + 1) := by
  have e : length_bitLoop 0xFF 32 0x40 0 = 7 := by decide
  have e1 : (0xFF &&& 0x80) ≠ 0 := by decide
  unfold length
  rw [length_loop, hff]
  simp only []
  rw [if_pos e1, length_bitLoop_add, e, length_loop_fuel mem mem.length (p + 8) 0 (by omega)]
  have := length_loop_count mem mem.length (p + 1 + 7) 0 1
  simp only [Nat.zero_add] at this
  exact this

/-- Witness of the amended C14 on `FF`, seven non-zero bytes, the letter A and
the terminator: the count from the letter A is 1, the count from `FF` is 2. -/
theorem length_continues_after_illegal_lead_witness :
    [0xFF, 1, 2, 3, 4, 5, 6, 7, 0x41, 0][0]? = some 0xFF
    ∧ length [0xFF, 1, 2, 3, 4, 5, 6, 7, 0x41, 0] 0
        = (length [0xFF, 1, 2, 3, 4, 5, 6, 7, 0x41, 0] (0 + 8)).map (· + 1)
    ∧ length [0xFF, 1, 2, 3, 4, 5, 6, 7, 0x41, 0] 8 = some 1
    ∧ length [0xFF, 1, 2, 3, 4, 5, 6, 7, 0x41, 0] 0 = some 2 :=
  ⟨by decide, length_continues_after_illegal_lead [0xFF, 1, 2, 3, 4, 5, 6, 7, 0x41, 0] 0 (by decide),
    by decide, by decide⟩

/-! ## Written text: where the terminator is -/

theorem standardBytes_ne_zero {c : Nat} (h0 : c ≠ 0) (hc : c ≤ 0x10FFFF) :
    ∀ b ∈ standardBytes c, b ≠ 0 := by
  intro b hb
  by_cases h1 : c < 0x80
  · rw [standardBytes_one h1] at hb
    simp only [List.mem_singleton] at hb
    omega
  by_cases h2 : c < 0x800
  · rw [standardBytes_two (by omega) h2] at hb
    simp only [List.mem_cons, List.mem_singleton, List.not_mem_nil, or_false] at hb
    omega
  by_cases h3 : c < 0x10000
  · rw [standardBytes_three (by omega) h3] at hb
    simp only [List.mem_cons, List.mem_singleton, List.not_mem_nil, or_false] at hb
    omega
  · rw [standardBytes_four (by omega) (by omega)] at hb
    simp only [List.mem_cons, List.mem_singleton, List.not_mem_nil, or_false] at hb
    omega

theorem encodeAll_ne_zero : ∀ (cs : List Nat), (∀ c ∈ cs, c ≠ 0 ∧ c ≤ 0x10FFFF) →
    ∀ b ∈ encodeAll cs, b ≠ 0 := by
  intro cs
  induction cs with
  | nil => intro _ b hb; simp [encodeAll] at hb
  | cons c cs ih =>
    intro hv b hb
    rw [encodeAll, List.mem_append] at hb
    have hc := hv c (List.mem_cons_self _ _)
    rcases hb with hb | hb
    · exact standardBytes_ne_zero hc.1 hc.2 b hb
    · exact ih (fun x hx => hv x (List.mem_cons_of_mem _ hx)) b hb

theorem length_le_encodeAll_length : ∀ (cs : List Nat), cs.length ≤ (encodeAll cs).length := by
  intro cs
  induction cs with
  | nil => simp
  | cons c cs ih =>
    have h1 : 1 ≤ getBytesRequiredFor c := by
      unfold getBytesRequiredFor; split_ifs <;> omega
    rw [encodeAll, List.length_append, standardBytes_length, List.length_cons]
    omega

/-- The buffer that `writeEach cs` and then `write (0)` produce holds the
standard bytes of `cs` followed by a zero byte, the first zero byte from `p`
being the one at `p1`. -/
theorem written_text_layout (cs : List Nat) (mem0 m1 m2 : Memory) (p p1 p2 : Nat)
    (hcs : ∀ c ∈ cs, c ≠ 0 ∧ c ≤ 0x10FFFF)
    (hw : writeEach cs mem0 p = some (m1, p1)) (hz : write m1 p1 0 = some (m2, p2)) :
    holdsAt m2 p (encodeAll cs ++ [0]) ∧ p1 = p + (encodeAll cs).length ∧ p2 = p1 + 1
      ∧ p2 ≤ m2.length
      ∧ (∀ j, p ≤ j → j < p1 → ∃ v, m2[j]? = some v ∧ v ≠ 0) ∧ m2[p1]? = some 0 := by
  obtain ⟨e1, -, e3, -⟩ := writeEach_spec cs mem0 m1 p p1 hw
  obtain ⟨m3, hw3, hl3, hh3, hf3⟩ := write_spec m1 p1 0 (write_room hz)
  have hroom := write_room hz
  have hn : getBytesRequiredFor 0 = 1 := by decide
  rw [hn] at hw3 hf3 hroom
  rw [hz] at hw3
  simp only [Option.some.injEq, Prod.mk.injEq] at hw3
  obtain ⟨rfl, rfl⟩ := hw3
  have hh : holdsAt m2 p (encodeAll cs ++ [0]) := by
    rw [holdsAt_append, ← e1]
    refine ⟨holdsAt_frame e3 fun j _ hj => hf3 j (Or.inl (by omega)), ?_⟩
    rw [standardBytes_one (by omega)] at hh3
    exact hh3
  refine ⟨hh, e1, rfl, by omega, ?_, ?_⟩
  · intro j hj1 hj2
    have hi : j - p < (encodeAll cs).length := by omega
    have h := hh (j - p) (by rw [List.length_append]; omega)
    rw [List.getElem?_append_left hi, List.getElem?_eq_getElem hi] at h
    have e : p + (j - p) = j := by omega
    rw [e] at h
    exact ⟨_, h, encodeAll_ne_zero cs hcs _ (List.getElem_mem _)⟩
  · have h := hh (encodeAll cs).length (by rw [List.length_append]; simp)
    rw [List.getElem?_append_right (Nat.le_refl _)] at h
    simp only [Nat.sub_self, List.getElem?_cons_zero] at h
    rw [e1]
    exact h

/-! ## `length` and the terminator -/

/-- C18, the claim as stated fails: on the buffer `C0 00`, whose first zero
byte is at offset 1, `length ()` passes over the terminator and reads at
offset 2, outside the buffer; with more bytes behind the terminator
(`C0 00 41 00`) it counts on behind it and returns 2. -/
theorem length_reads_past_terminator_counterexample :
    [0xC0, 0][0]? = some 0xC0 ∧ [0xC0, 0][1]? = some 0
    ∧ length [0xC0, 0] 0 = none
    ∧ length [0xC0, 0, 0x41, 0] 0 = some 2 := by
  decide

/-- The terminator bound on written text, a special case of the bound on
buffers of complete units proved further down: on the bytes that `write`-ing a
list `cs` of non-zero code points each `≤ 0x10FFFF` and then a zero byte
produce, the first zero byte from the cursor `p` is the written terminator,
and on the buffer cut off right after it `length ()` returns the number of
elements of `cs`. -/
theorem length_stays_before_terminator_on_written_text (cs : List Nat) (mem0 m1 m2 : Memory)
    (p p1 p2 : Nat) (hcs : ∀ c ∈ cs, c ≠ 0 ∧ c ≤ 0x10FFFF)
    (hw : writeEach cs mem0 p = some (m1, p1)) (hz : write m1 p1 0 = some (m2, p2)) :
    (∀ j, p ≤ j → j < p1 → ∃ v, m2[j]? = some v ∧ v ≠ 0) ∧ m2[p1]? = some 0
      ∧ (m2.take (p1 + 1)).length = p1 + 1
      ∧ length (m2.take (p1 + 1)) p = some cs.length := by
  obtain ⟨hh, e1, e2, hlen, hnz, hz0⟩ := written_text_layout cs mem0 m1 m2 p p1 p2 hcs hw hz
  have hl : (m2.take (p1 + 1)).length = p1 + 1 := by
    rw [List.length_take]; omega
  have hh1 : holdsAt (m2.take (p1 + 1)) p (encodeAll cs ++ [0]) := by
    intro i hi
    rw [List.length_append, List.length_singleton] at hi
    rw [List.getElem?_take_of_lt (by omega)]
    exact hh i (by rw [List.length_append, List.length_singleton]; exact hi)
  refine ⟨hnz, hz0, hl, ?_⟩
  have hle := length_le_encodeAll_length cs
  have := length_loop_encodeAll cs (m2.take (p1 + 1)) p 0 ((m2.take (p1 + 1)).length + 1) hcs hh1
    (by omega)
  simpa [length] using this

/-- The terminator bound on written text at a concrete input: the text
`41 E2 82 AC` with its terminator, written at position 1 of a buffer with
bytes behind the terminator. -/
theorem length_stays_before_terminator_on_written_text_witness :
    ((∀ c ∈ [0x41, 0x20AC], c ≠ 0 ∧ c ≤ 0x10FFFF)
      ∧ writeEach [0x41, 0x20AC] [7, 7, 7, 7, 7, 7, 0xC0, 0] 1
          = some ([7, 0x41, 0xE2, 0x82, 0xAC, 7, 0xC0, 0], 5)
      ∧ write [7, 0x41, 0xE2, 0x82, 0xAC, 7, 0xC0, 0] 5 0
          = some ([7, 0x41, 0xE2, 0x82, 0xAC, 0, 0xC0, 0], 6))
    ∧ ((∀ j, 1 ≤ j → j < 5 → ∃ v, [7, 0x41, 0xE2, 0x82, 0xAC, 0, 0xC0, 0][j]? = some v ∧ v ≠ 0)
      ∧ [7, 0x41, 0xE2, 0x82, 0xAC, 0, 0xC0, 0][5]? = some 0
      ∧ ([7, 0x41, 0xE2, 0x82, 0xAC, 0, 0xC0, 0].take (5 + 1)).length = 5 + 1
      ∧ length ([7, 0x41, 0xE2, 0x82, 0xAC, 0, 0xC0, 0].take (5 + 1)) 1
          = some [0x41, 0x20AC].length)
    ∧ length [7, 0x41, 0xE2, 0x82, 0xAC, 0] 1 = some 2 :=
  ⟨⟨by decide, by decide, by decide⟩,
    length_stays_before_terminator_on_written_text [0x41, 0x20AC] [7, 7, 7, 7, 7, 7, 0xC0, 0]
      [7, 0x41, 0xE2, 0x82, 0xAC, 7, 0xC0, 0] [7, 0x41, 0xE2, 0x82, 0xAC, 0, 0xC0, 0] 1 5 6
      (by decide) (by decide) (by decide),
    by decide⟩

/-! ## `strlen`, `sizeInBytes`, `getBytesRequiredFor (text)` and `findTerminatingNull` -/

theorem strlen_loop_spec (mem : Memory) (s : Nat) : ∀ (k fuel n : Nat), k < fuel →
    (∀ i, n ≤ i → i < n + k → ∃ v, mem[s + i]? = some v ∧ v ≠ 0) → mem[s + (n + k)]? = some 0 →
    strlen_loop mem fuel s n = some (n + k) := by
  intro k
  induction k with
  | zero =>
    intro fuel n hf _ hz
    obtain ⟨f, rfl⟩ : ∃ f, fuel = f + 1 := ⟨fuel - 1, by omega⟩
    rw [Nat.add_zero] at hz
    simp [strlen_loop, hz]
  | succ k ih =>
    intro fuel n hf hnz hz
    obtain ⟨f, rfl⟩ : ∃ f, fuel = f + 1 := ⟨fuel - 1, by omega⟩
    obtain ⟨v, hv, hv0⟩ := hnz n (Nat.le_refl n) (by omega)
    have e : n + (k + 1) = n + 1 + k := by omega
    rw [strlen_loop, hv]
    simp only [hv0, if_false]
    rw [e, ih f (n + 1) (by omega) (fun i hi1 hi2 => hnz i (by omega) (by omega))
      (by rw [← e]; exact hz)]

theorem strlen_spec (mem : Memory) (s t : Nat)
    (hnz : ∀ j, s ≤ j → j < s + t → ∃ v, mem[j]? = some v ∧ v ≠ 0) (hz : mem[s + t]? = some 0) :
    strlen mem s = some t := by
  have hs : s + t < mem.length := (List.getElem?_eq_some.mp hz).1
  have := strlen_loop_spec mem s t (mem.length + 1) 0 (by omega)
    (fun i _ hi2 => hnz (s + i) (by omega) (by omega)) (by rw [Nat.zero_add]; exact hz)
  rw [Nat.zero_add] at this
  exact this

theorem getAndAdvance_terminator {mem : Memory} {p : Nat} (h : mem[p]? = some 0) :
    getAndAdvance mem p = some (0, p + 1) := by
  simp [getAndAdvance, h]

theorem getBytesRequiredFor_text_loop_encodeAll : ∀ (cs : List Nat) (mem : Memory)
    (p count fuel : Nat), (∀ c ∈ cs, c ≠ 0 ∧ c ≤ 0x10FFFF) →
    holdsAt mem p (encodeAll cs ++ [0]) → cs.length < fuel →
    getBytesRequiredFor_text_loop mem fuel p count = some (count + (encodeAll cs).length) := by
  intro cs
  induction cs with
  | nil =>
    intro mem p count fuel _ h hf
    have hm : mem[p]? = some 0 := by simpa [encodeAll] using h 0 (by simp [encodeAll])
    obtain ⟨f, rfl⟩ : ∃ f, fuel = f + 1 := ⟨fuel - 1, by simp at hf; omega⟩
    simp [getBytesRequiredFor_text_loop, getAndAdvance_terminator hm, encodeAll]
  | cons c cs ih =>
    intro mem p count fuel hv h hf
    obtain ⟨f, rfl⟩ : ∃ f, fuel = f + 1 := ⟨fuel - 1, by omega⟩
    rw [encodeAll, List.append_assoc, holdsAt_append, standardBytes_length] at h
    have hc := hv c (List.mem_cons_self _ _)
    rw [getBytesRequiredFor_text_loop, getAndAdvance_standardBytes hc.2 h.1]
    simp only [ne_eq, hc.1, not_false_eq_true, if_true]
    rw [ih mem _ _ f (fun x hx => hv x (List.mem_cons_of_mem _ hx)) h.2
      (by simp at hf; omega)]
    rw [encodeAll, List.length_append, standardBytes_length]
    congr 1
    omega

/-- C13: byte size and required bytes agree.  On the buffer obtained by
`write`-ing a list `cs` of non-zero code points each `≤ 0x10FFFF` and then a
zero byte, the string form of `getBytesRequiredFor` at the start returns the
number `n` of bytes written for `cs`, without the terminator, and
`sizeInBytes ()` returns `n + 1`. -/
theorem sizeInBytes_eq_getBytesRequiredFor_text_add_one (cs : List Nat) (mem0 m1 m2 : Memory)
    (p p1 p2 : Nat) (hcs : ∀ c ∈ cs, c ≠ 0 ∧ c ≤ 0x10FFFF)
    (hw : writeEach cs mem0 p = some (m1, p1)) (hz : write m1 p1 0 = some (m2, p2)) :
    ∃ n, getBytesRequiredFor_text m2 p = some n ∧ sizeInBytes m2 p = some (n + 1)
      ∧ p + n = p1 := by
  obtain ⟨hh, e1, e2, hlen, hnz, hz0⟩ := written_text_layout cs mem0 m1 m2 p p1 p2 hcs hw hz
  have hle := length_le_encodeAll_length cs
  refine ⟨(encodeAll cs).length, ?_, ?_, e1.symm⟩
  · have := getBytesRequiredFor_text_loop_encodeAll cs m2 p 0 (m2.length + 1) hcs hh (by omega)
    simpa [getBytesRequiredFor_text] using this
  · have hs := strlen_spec m2 p (encodeAll cs).length (by rw [← e1]; exact hnz)
      (by rw [← e1]; exact hz0)
    simp [sizeInBytes, hs]

/-- Witness of C13: the text `41 E2 82 AC` with its terminator needs 4 bytes
and has size 5. -/
theorem sizeInBytes_eq_getBytesRequiredFor_text_add_one_witness :
    ((∀ c ∈ [0x41, 0x20AC], c ≠ 0 ∧ c ≤ 0x10FFFF)
      ∧ writeEach [0x41, 0x20AC] [7, 7, 7, 7, 7, 7] 0 = some ([0x41, 0xE2, 0x82, 0xAC, 7, 7], 4)
      ∧ write [0x41, 0xE2, 0x82, 0xAC, 7, 7] 4 0 = some ([0x41, 0xE2, 0x82, 0xAC, 0, 7], 5))
    ∧ (∃ n, getBytesRequiredFor_text [0x41, 0xE2, 0x82, 0xAC, 0, 7] 0 = some n
        ∧ sizeInBytes [0x41, 0xE2, 0x82, 0xAC, 0, 7] 0 = some (n + 1) ∧ 0 + n = 4)
    ∧ getBytesRequiredFor_text [0x41, 0xE2, 0x82, 0xAC, 0, 7] 0 = some 4
    ∧ sizeInBytes [0x41, 0xE2, 0x82, 0xAC, 0, 7] 0 = some 5 :=
  ⟨⟨by decide, by decide, by decide⟩,
    sizeInBytes_eq_getBytesRequiredFor_text_add_one [0x41, 0x20AC] [7, 7, 7, 7, 7, 7]
      [0x41, 0xE2, 0x82, 0xAC, 7, 7] [0x41, 0xE2, 0x82, 0xAC, 0, 7] 0 4 5
      (by decide) (by decide) (by decide),
    by decide, by decide⟩

/-! ## Skipping characters of written text -/

theorem isValidString_bitLoop_pos (n fuel j : Nat)
    (h : isValidString_bitLoop n fuel 0x40 0 = some (j + 1)) : (n &&& 0x40) ≠ 0 := by
  intro h0
  cases fuel with
  | zero => simp [isValidString_bitLoop] at h
  | succ f =>
    rw [isValidString_bitLoop] at h
    simp [h0] at h

theorem not_continuation_of_bit_0x40 {n : Nat} (h : (n &&& 0x40) ≠ 0) : (n &&& 0xc0) ≠ 0x80 := by
  intro hc
  apply h
  have e0 : (0xc0 &&& 0x40 : Nat) = 0x40 := by decide
  have e : (n &&& 0xc0) &&& 0x40 = n &&& 0x40 := by
    rw [Nat.and_assoc, e0]
  rw [← e, hc]
  decide

theorem isValidString_loop_first_byte_decides (mem mem1 : Memory) (p : Nat)
    (h : mem1[p]? = mem[p]?) : ∀ m, isValidString_loop mem1 m p = isValidString_loop mem m p := by
  intro m
  induction m with
  | zero => rfl
  | succ m ih =>
    conv_lhs => rw [isValidString_loop]
    conv_rhs => rw [isValidString_loop]
    rw [h]
    cases hm : mem[p]? with
    | none => rfl
    | some byte =>
      simp only []
      split_ifs with h0 h1
      · rfl
      · cases hk : isValidString_bitLoop byte 32 0x40 0 with
        | none => rfl
        | some k =>
          simp only []
          cases k with
          | zero =>
            simp only [isValidString_contLoop]
            exact ih
          | succ j =>
            have hb := not_continuation_of_bit_0x40 (isValidString_bitLoop_pos byte 32 j hk)
            simp only [isValidString_contLoop, h, hm, hb, ne_eq, not_false_eq_true, if_true]
      · exact ih

theorem isValidString_loop_isSome (mem : Memory) (p : Nat) (hp : p < mem.length) :
    ∀ m, (isValidString_loop mem m p).isSome := by
  intro m
  induction m with
  | zero => rfl
  | succ m ih =>
    rw [isValidString_loop, List.getElem?_eq_getElem hp]
    simp only []
    split_ifs with h0 h1
    · rfl
    · cases hk : isValidString_bitLoop mem[p] 32 0x40 0 with
      | none => rfl
      | some k =>
        simp only []
        cases k with
        | zero =>
          simp only [isValidString_contLoop]
          exact ih
        | succ j =>
          have hb := not_continuation_of_bit_0x40 (isValidString_bitLoop_pos mem[p] 32 j hk)
          simp [isValidString_contLoop, List.getElem?_eq_getElem hp, hb]
    · exact ih

/-- C22: `isValidString` terminates and respects its byte budget.  For every
buffer and every integer `maxBytesToRead`: the result is the same on the
buffer cut off `maxBytesToRead` bytes after `dataToTest` (cut off at
`dataToTest` itself when `maxBytesToRead ≤ 0`), where a read at an index
`≥ maxBytesToRead` would be an error, so no such byte is read; the function
returns a verdict whenever `maxBytesToRead ≤ 0` or `dataToTest` is inside the
buffer; and for `maxBytesToRead ≤ 0` it returns true, even on the empty
buffer, where nothing can be read.  The `int` is a mathematical integer here;
in C++ the decrement `--maxBytesToRead` is undefined at the least `int` only. -/
theorem isValidString_respects_budget (mem : Memory) (dataToTest : Nat) (maxBytesToRead : Int) :
    isValidString (mem.take (dataToTest + maxBytesToRead.toNat)) dataToTest maxBytesToRead
      = isValidString mem dataToTest maxBytesToRead
    ∧ ((maxBytesToRead ≤ 0 ∨ dataToTest < mem.length) →
        (isValidString mem dataToTest maxBytesToRead).isSome)
    ∧ (maxBytesToRead ≤ 0 → isValidString mem dataToTest maxBytesToRead = some true
        ∧ isValidString [] dataToTest maxBytesToRead = some true) := by
  have hzero : ∀ (m : Memory), maxBytesToRead ≤ 0 →
      isValidString m dataToTest maxBytesToRead = some true := by
    intro m h
    have e : maxBytesToRead.toNat = 0 := by omega
    rw [isValidString, e]
    rfl
  refine ⟨?_, ?_, fun h => ⟨hzero mem h, hzero [] h⟩⟩
  · by_cases h : maxBytesToRead ≤ 0
    · rw [hzero _ h, hzero _ h]
    · unfold isValidString
      exact isValidString_loop_first_byte_decides mem _ dataToTest
        (List.getElem?_take_of_lt (by omega)) _
  · rintro (h | h)
    · rw [hzero mem h]; rfl
    · exact isValidString_loop_isSome mem dataToTest h _

/-- Witness of C22 on the buffer `41 E2 41 00`: with a budget of 2 the result
on the first 2 bytes alone is the result on the whole buffer; with a budget
of 0 or less the result is true; on a buffer of one byte, where any read
behind index 0 is an error, a budget of 4 still gives a verdict. -/
theorem isValidString_respects_budget_witness :
    (isValidString ([0x41, 0xE2, 0x41, 0].take (0 + (2 : Int).toNat)) 0 2
        = isValidString [0x41, 0xE2, 0x41, 0] 0 2
      ∧ (((2 : Int) ≤ 0 ∨ 0 < [0x41, 0xE2, 0x41, 0].length) →
          (isValidString [0x41, 0xE2, 0x41, 0] 0 2).isSome)
      ∧ ((2 : Int) ≤ 0 → isValidString [0x41, 0xE2, 0x41, 0] 0 2 = some true
          ∧ isValidString [] 0 2 = some true))
    ∧ isValidString [0x41, 0xE2] 0 2 = some true
    ∧ isValidString [0x41, 0xE2, 0x41, 0] 0 0 = some true
    ∧ isValidString [] 0 (-5) = some true
    ∧ isValidString [0x41] 0 4 = some true
    ∧ isValidString [0xE2] 0 4 = some false :=
  ⟨isValidString_respects_budget [0x41, 0xE2, 0x41, 0] 0 2,
    by decide, by decide, by decide, by decide, by decide⟩

/-! ## `length` on buffers of complete units -/

set_option maxRecDepth 8192 in
theorem announcedTail_facts : ∀ b < 256,
    (0x80 ≤ b → (b &&& 0x80) ≠ 0 ∧ length_bitLoop b 32 0x40 0 = announcedTail b)
    ∧ (b < 0x80 → b &&& 0x80 = 0 ∧ announcedTail b = 0) := by
  decide

theorem isCompleteUnit_iff {u : List Nat} (h : isCompleteUnit u = true) :
    ∃ b tail, u = b :: tail ∧ b ≠ 0 ∧ b < 256 ∧ tail.length = announcedTail b
      ∧ ∀ v ∈ tail, v ≠ 0 := by
  cases u with
  | nil => simp [isCompleteUnit] at h
  | cons b tail =>
    simp only [isCompleteUnit, Bool.and_eq_true, decide_eq_true_eq, List.all_eq_true] at h
    exact ⟨b, tail, rfl, h.1.1.1, h.1.1.2, h.1.2, h.2⟩

theorem length_loop_unit {mem : Memory} {p : Nat} {u : List Nat} (fuel count : Nat)
    (hu : isCompleteUnit u = true) (h : holdsAt mem p u) :
    length_loop mem (fuel + 1) p count = length_loop mem fuel (p + u.length) (count + 1) := by
  obtain ⟨b, tail, rfl, hb0, hb, hlen, -⟩ := isCompleteUnit_iff hu
  have hm : mem[p]? = some b := by simpa using h 0 (by simp)
  obtain ⟨f1, f2⟩ := announcedTail_facts b hb
  rw [length_loop, hm]
  simp only [List.length_cons, hlen]
  by_cases h80 : 0x80 ≤ b
  · obtain ⟨g1, g2⟩ := f1 h80
    rw [if_pos g1, length_bitLoop_add, g2]
    congr 1
    omega
  · obtain ⟨g1, g2⟩ := f2 (by omega)
    rw [if_neg (by rw [g1]; simp), if_neg hb0, g2]

theorem length_loop_units : ∀ (units : List (List Nat)) (mem : Memory) (p count fuel : Nat),
    (∀ u ∈ units, isCompleteUnit u = true) → holdsAt mem p (joinUnits units ++ [0]) →
    units.length < fuel → length_loop mem fuel p count = some (count + units.length) := by
  intro units
  induction units with
  | nil =>
    intro mem p count fuel _ h hf
    have hm : mem[p]? = some 0 := by simpa [joinUnits] using h 0 (by simp [joinUnits])
    obtain ⟨f, rfl⟩ : ∃ f, fuel = f + 1 := ⟨fuel - 1, by simp at hf; omega⟩
    simp [length_loop, hm]
  | cons u units ih =>
    intro mem p count fuel hv h hf
    obtain ⟨f, rfl⟩ : ∃ f, fuel = f + 1 := ⟨fuel - 1, by omega⟩
    rw [joinUnits, List.append_assoc, holdsAt_append] at h
    rw [length_loop_unit f count (hv u (List.mem_cons_self _ _)) h.1,
      ih mem _ (count + 1) f (fun x hx => hv x (List.mem_cons_of_mem _ hx)) h.2
        (by simp at hf; omega)]
    simp only [List.length_cons]
    congr 1
    omega

theorem joinUnits_ne_zero : ∀ (units : List (List Nat)),
    (∀ u ∈ units, isCompleteUnit u = true) → ∀ b ∈ joinUnits units, b ≠ 0 := by
  intro units
  induction units with
  | nil => intro _ b hb; simp [joinUnits] at hb
  | cons u units ih =>
    intro hv b hb
    rw [joinUnits, List.mem_append] at hb
    rcases hb with hb | hb
    · obtain ⟨b0, tail, rfl, hb0, -, -, ht⟩ := isCompleteUnit_iff (hv u (List.mem_cons_self _ _))
      rcases List.mem_cons.mp hb with rfl | hb1
      · exact hb0
      · exact ht b hb1
    · exact ih (fun x hx => hv x (List.mem_cons_of_mem _ hx)) b hb

theorem length_le_joinUnits_length : ∀ (units : List (List Nat)),
    (∀ u ∈ units, isCompleteUnit u = true) → units.length ≤ (joinUnits units).length := by
  intro units
  induction units with
  | nil => intro _; simp
  | cons u units ih =>
    intro hv
    obtain ⟨b0, tail, rfl, -⟩ := isCompleteUnit_iff (hv u (List.mem_cons_self _ _))
    have := ih (fun x hx => hv x (List.mem_cons_of_mem _ hx))
    simp only [joinUnits, List.length_append, List.length_cons]
    omega

/-- The bytes that `write` stores for a non-zero code point `c ≤ 0x10FFFF` are
a complete unit, so written text is a buffer of complete units. -/
theorem isCompleteUnit_standardBytes {c : Nat} (h0 : c ≠ 0) (hc : c ≤ 0x10FFFF) :
    isCompleteUnit (standardBytes c) = true := by
  by_cases h1 : c < 0x80
  · rw [standardBytes_one h1]
    simp only [isCompleteUnit, announcedTail, Bool.and_eq_true, decide_eq_true_eq,
      List.all_eq_true, List.length_nil, List.not_mem_nil]
    refine ⟨⟨⟨h0, by omega⟩, ?_⟩, fun v hv => hv.elim⟩
    rw [if_pos (by omega)]
  by_cases h2 : c < 0x800
  · rw [standardBytes_two (by omega) h2]
    simp only [isCompleteUnit, announcedTail, Bool.and_eq_true, decide_eq_true_eq,
      List.all_eq_true, List.length_cons, List.length_nil, List.mem_cons, List.mem_singleton,
      List.not_mem_nil, or_false]
    refine ⟨⟨⟨by omega, by omega⟩, ?_⟩, fun v hv => by omega⟩
    rw [if_neg (by omega), if_pos (by omega)]
  by_cases h3 : c < 0x10000
  · rw [standardBytes_three (by omega) h3]
    simp only [isCompleteUnit, announcedTail, Bool.and_eq_true, decide_eq_true_eq,
      List.all_eq_true, List.length_cons, List.length_nil, List.mem_cons, List.mem_singleton,
      List.not_mem_nil, or_false]
    refine ⟨⟨⟨by omega, by omega⟩, ?_⟩, fun v hv => by omega⟩
    rw [if_neg (by omega), if_neg (by omega), if_pos (by omega)]
  · rw [standardBytes_four (by omega) (by omega)]
    simp only [isCompleteUnit, announcedTail, Bool.and_eq_true, decide_eq_true_eq,
      List.all_eq_true, List.length_cons, List.length_nil, List.mem_cons, List.mem_singleton,
      List.not_mem_nil, or_false]
    refine ⟨⟨⟨by omega, by omega⟩, ?_⟩, fun v hv => by omega⟩
    rw [if_neg (by omega), if_neg (by omega), if_neg (by omega), if_pos (by omega)]

/-- C18, amended: `length ()` is a terminator-bounded scan on every buffer of
complete units.  If the bytes from the cursor `p` are a list of complete units
(a non-zero byte followed by exactly the bytes it announces, all non-zero,
whatever else these bytes are) and then a zero byte, then that zero byte, at
offset `t`, is the first one from the cursor, and `length ()` reads no byte
behind it: on the buffer cut off right after it, where every read at an
offset greater than `t` is an error, `length ()` returns the number of units. -/
theorem length_stays_before_terminator_on_complete_units (units : List (List Nat))
    (mem : Memory) (p t : Nat) (hu : ∀ u ∈ units, isCompleteUnit u = true)
    (hh : holdsAt mem p (joinUnits units ++ [0])) (ht : t = (joinUnits units).length) :
    (∀ j, p ≤ j → j < p + t → ∃ v, mem[j]? = some v ∧ v ≠ 0) ∧ mem[p + t]? = some 0
      ∧ (mem.take (p + t + 1)).length = p + t + 1
      ∧ length (mem.take (p + t + 1)) p = some units.length := by
  subst ht
  have hb := holdsAt_bound hh
  simp only [List.append_eq_nil, List.cons_ne_self, and_false, false_or, List.length_append,
    List.length_singleton] at hb
  have hl : (mem.take (p + (joinUnits units).length + 1)).length
      = p + (joinUnits units).length + 1 := by
    rw [List.length_take]; omega
  have hh1 : holdsAt (mem.take (p + (joinUnits units).length + 1)) p (joinUnits units ++ [0]) := by
    intro i hi
    rw [List.length_append, List.length_singleton] at hi
    rw [List.getElem?_take_of_lt (by omega)]
    exact hh i (by rw [List.length_append, List.length_singleton]; exact hi)
  refine ⟨?_, ?_, hl, ?_⟩
  · intro j hj1 hj2
    have hi : j - p < (joinUnits units).length := by omega
    have h := hh (j - p) (by rw [List.length_append]; omega)
    rw [List.getElem?_append_left hi, List.getElem?_eq_getElem hi] at h
    have e : p + (j - p) = j := by omega
    rw [e] at h
    exact ⟨_, h, joinUnits_ne_zero units hu _ (List.getElem_mem _)⟩
  · have h := hh (joinUnits units).length (by rw [List.length_append]; simp)
    rw [List.getElem?_append_right (Nat.le_refl _)] at h
    simpa using h
  · have hle := length_le_joinUnits_length units hu
    have := length_loop_units units (mem.take (p + (joinUnits units).length + 1)) p 0
      ((mem.take (p + (joinUnits units).length + 1)).length + 1) hu hh1 (by omega)
    simpa [length] using this

/-- Witness of the amended C18 on buffers that are not written text: the
units `80`, `C3 41`, `F8 88 80 80 80` and `FF 01 02 03 04 05 06 07` with a
terminator, at position 1 of a buffer with bytes behind the terminator. -/
theorem length_stays_before_terminator_on_complete_units_witness :
    ((∀ u ∈ [[0x80], [0xC3, 0x41], [0xF8, 0x88, 0x80, 0x80, 0x80],
          [0xFF, 1, 2, 3, 4, 5, 6, 7]], isCompleteUnit u = true)
      ∧ holdsAt [9, 0x80, 0xC3, 0x41, 0xF8, 0x88, 0x80, 0x80, 0x80, 0xFF, 1, 2, 3, 4, 5, 6, 7,
            0, 0xC0, 0] 1
          (joinUnits [[0x80], [0xC3, 0x41], [0xF8, 0x88, 0x80, 0x80, 0x80],
            [0xFF, 1, 2, 3, 4, 5, 6, 7]] ++ [0])
      ∧ 16 = (joinUnits [[0x80], [0xC3, 0x41], [0xF8, 0x88, 0x80, 0x80, 0x80],
            [0xFF, 1, 2, 3, 4, 5, 6, 7]]).length)
    ∧ ((∀ j, 1 ≤ j → j < 1 + 16 → ∃ v, [9, 0x80, 0xC3, 0x41, 0xF8, 0x88, 0x80, 0x80, 0x80, 0xFF,
            1, 2, 3, 4, 5, 6, 7, 0, 0xC0, 0][j]? = some v ∧ v ≠ 0)
      ∧ [9, 0x80, 0xC3, 0x41, 0xF8, 0x88, 0x80, 0x80, 0x80, 0xFF, 1, 2, 3, 4, 5, 6, 7,
            0, 0xC0, 0][1 + 16]? = some 0
      ∧ ([9, 0x80, 0xC3, 0x41, 0xF8, 0x88, 0x80, 0x80, 0x80, 0xFF, 1, 2, 3, 4, 5, 6, 7,
            0, 0xC0, 0].take (1 + 16 + 1)).length = 1 + 16 + 1
      ∧ length ([9, 0x80, 0xC3, 0x41, 0xF8, 0x88, 0x80, 0x80, 0x80, 0xFF, 1, 2, 3, 4, 5, 6, 7,
            0, 0xC0, 0].take (1 + 16 + 1)) 1
          = some [[0x80], [0xC3, 0x41], [0xF8, 0x88, 0x80, 0x80, 0x80],
              [0xFF, 1, 2, 3, 4, 5, 6, 7]].length)
    ∧ length [0x80, 0] 0 = some 1
    ∧ length [0xC3, 0x41, 0] 0 = some 1
    ∧ length [0xF8, 0x88, 0x80, 0x80, 0x80, 0] 0 = some 1
    ∧ length [0xFF, 1, 2, 3, 4, 5, 6, 7, 0] 0 = some 1
    ∧ isCompleteUnit [0xC0, 0] = false :=
  ⟨⟨by decide, fun i hi => by
        simp only [joinUnits, List.length_append, List.length_cons, List.length_nil] at hi
        interval_cases i <;> rfl, by decide⟩,
    length_stays_before_terminator_on_complete_units
      [[0x80], [0xC3, 0x41], [0xF8, 0x88, 0x80, 0x80, 0x80], [0xFF, 1, 2, 3, 4, 5, 6, 7]]
      [9, 0x80, 0xC3, 0x41, 0xF8, 0x88, 0x80, 0x80, 0x80, 0xFF, 1, 2, 3, 4, 5, 6, 7, 0, 0xC0, 0]
      1 16 (by decide) (fun i hi => by
        simp only [joinUnits, List.length_append, List.length_cons, List.length_nil] at hi
        interval_cases i <;> rfl) (by decide),
    by decide, by decide, by decide, by decide, by decide⟩

/-! ## A text too long for the `int` parameter of `operator+` -/

end CharPointer_UTF8
